import Mathlib

/-!
Verification of the ECLAT frequent-itemset miner and association-rule
deriver implemented in `Code/eclat_algo.py`.

The shallow embedding below translates the Python source:
* transaction ids and items are opaque hashable values in the source;
  both are modelled as natural numbers;
* the observations DataFrame (two columns: transaction id, item) is a
  `List (Tid × Item)`;
* Python `set`s of transaction ids are `Finset ℕ`;
* Python floats (`min_support`, the `support` column) are `ℚ`;
* fallible code (`raise ValueError`) returns `Except`.

Python's `sorted` and the pandas sorts are modelled with the stable
`List.insertionSort` (Python's Timsort is stable, and a stable sort is
extensionally determined by the key comparisons).
-/

namespace EclatAlgo

abbrev Item := Nat

abbrev Tid := Nat

/-- One observation row: (transaction id, item). -/
abbrev Obs := List (Tid × Item)

abbrev TSet := Finset Nat

/-- All transaction ids of the table (`df[transact_col]`, as a set). -/
def allTids (db : Obs) : TSet := (db.map Prod.fst).toFinset

/-- All items of the table (the group keys of `df.groupby(item_col)`). -/
def itemsOf (db : Obs) : Finset Item := (db.map Prod.snd).toFinset

/-- The set of transactions containing item `x`
(one group of `df.groupby(item_col).aggregate(set)`). -/
def tidsOf (db : Obs) (x : Item) : TSet :=
  ((db.filter (fun p => p.2 = x)).map Prod.fst).toFinset

/-- `len(df[transact_col].unique())`. -/
def totalTransactions (db : Obs) : Nat := (allTids db).card

/-- Stable ascending sort by a `Nat` key; models Python's stable `sorted`
and the pandas `sort_values` with a length key. -/
def sortByKey {α : Type} (key : α → Nat) (l : List α) : List α :=
  l.insertionSort (fun a b => key a ≤ key b)

/-- `_vertical_transform`: group the observations by item (pandas `groupby`
sorts the group keys), collect each item's transaction set, then sort the
groups by ascending transaction-set size. -/
def vertical_transform (db : Obs) : List (Item × TSet) :=
  sortByKey (fun p => p.2.card)
    (((itemsOf db).sort (· ≤ ·)).map (fun x => (x, tidsOf db x)))

/-- Index of the first position where the two lists differ, if any
(the `break` index of the loop in `_find_common_prefix`). -/
def firstDiff : List Item → List Item → Option Nat
  | [], _ => none
  | _ :: _, [] => none
  | a :: l1, b :: l2 =>
    if a = b then (firstDiff l1 l2).map (· + 1) else some 0

/-- `_find_common_prefix`.  On lists of different lengths it raises
`ValueError("itemsets have different length!")`.  On two empty lists the
Python loop variable `i` is never bound and the function raises a
`NameError`; that branch is modelled by the second error below.  When the
loop runs to completion without `break` (`i = len-1`) the slice
`itemset1[:i]` drops the last element; when it breaks at position `i`
(including `i = 0`, the `i - 1 < 0` branch) it returns `itemset1[:i]`. -/
def find_common_stem (l1 l2 : List Item) : Except String (List Item) :=
  if l1.length = l2.length then
    if l1.isEmpty then Except.error "NameError: name i is not defined"
    else
      match firstDiff l1 l2 with
      | some i => Except.ok (l1.take i)
      | none => Except.ok (l1.take (l1.length - 1))
  else Except.error "itemsets have different length!"

/-- One row of the Frequent-Itemset Table: `(itemset, frequency, support)`. -/
structure FreqRec where
  itemset : List Item
  freq : Nat
  supp : ℚ
deriving DecidableEq, Repr

/-- One element of an equivalence class: `(itemset, transaction set)`. -/
abbrev EqElem := List Item × TSet

abbrev EqClass := List EqElem

/-- `len(vert_df.loc[item][transact_col])`, the sort key used for new
itemsets.  An item absent from the index would raise a `KeyError` in
Python; that case is unreachable from `eclat` and is given a default. -/
def lookupKey (vert : List (Item × TSet)) (x : Item) : Nat :=
  match vert.find? (fun p => p.1 = x) with
  | some p => p.2.card
  | none => 0

/-- The body of the inner `for itemset2, transacts2 in cur_class[(i+1):]`
loop, for one candidate pair: intersect, prune below `minFreq`, build the
new itemset (common prefix ++ the two last elements, re-sorted by the
vertical-index size key) and its record.  `itemset[-1]` on the (unreachable
from `eclat`) empty itemset is modelled with a default. -/
def combineStep (vert : List (Item × TSet)) (minFreq : ℤ) (total : Nat)
    (x y : EqElem) : Except String (Option (EqElem × FreqRec)) :=
  let nt := x.2 ∩ y.2
  if (nt.card : ℤ) < minFreq then Except.ok none
  else
    match find_common_stem x.1 y.1 with
    | Except.error e => Except.error e
    | Except.ok stem =>
      let ni := sortByKey (lookupKey vert) (stem ++ [x.1.getLastD 0, y.1.getLastD 0])
      Except.ok (some ((ni, nt), ⟨ni, nt.card, (nt.card : ℚ) / (total : ℚ)⟩))

/-- The whole inner loop: combine `x` with every later element, collecting
the surviving `(new itemset, new transactions)` pairs (the `next_class`)
and the emitted frequent-itemset records, in order. -/
def combineAll (vert : List (Item × TSet)) (minFreq : ℤ) (total : Nat)
    (x : EqElem) : EqClass → Except String (EqClass × List FreqRec)
  | [] => Except.ok ([], [])
  | y :: ys =>
    match combineStep vert minFreq total x y with
    | Except.error e => Except.error e
    | Except.ok none => combineAll vert minFreq total x ys
    | Except.ok (some (e, r)) =>
      match combineAll vert minFreq total x ys with
      | Except.error e2 => Except.error e2
      | Except.ok (es, rs) => Except.ok (e :: es, r :: rs)

/-- The outer `for i, (itemset, transacts) in enumerate(cur_class[:-1])`
loop of one stack iteration: returns the classes pushed (in push order)
and the records emitted.  Recursing past the last element is harmless
because the last element has no later partners. -/
def processClass (vert : List (Item × TSet)) (minFreq : ℤ) (total : Nat) :
    EqClass → Except String (List EqClass × List FreqRec)
  | [] => Except.ok ([], [])
  | x :: rest =>
    match combineAll vert minFreq total x rest with
    | Except.error e => Except.error e
    | Except.ok (nc, nr) =>
      match processClass vert minFreq total rest with
      | Except.error e => Except.error e
      | Except.ok (cs, rs) =>
        Except.ok ((if nc.isEmpty then cs else nc :: cs), nr ++ rs)

/-- Termination measure: the sum over pending classes of `(size)!`. -/
def stackMeasure (st : List EqClass) : Nat :=
  (st.map (fun c => c.length.factorial)).sum

theorem combineAll_length_le (vert : List (Item × TSet)) (minFreq : ℤ)
    (total : Nat) (x : EqElem) :
    ∀ ys nc nr, combineAll vert minFreq total x ys = Except.ok (nc, nr) →
      nc.length ≤ ys.length := by
  intro ys
  induction ys with
  | nil =>
    intro nc nr h
    simp only [combineAll, Except.ok.injEq, Prod.mk.injEq] at h
    simp [← h.1]
  | cons y ys ih =>
    intro nc nr h
    simp only [combineAll] at h
    cases hstep : combineStep vert minFreq total x y with
    | error e => rw [hstep] at h; exact absurd h (by simp)
    | ok o =>
      rw [hstep] at h
      cases o with
      | none =>
        simpa using Nat.le_succ_of_le (ih _ _ h)
      | some er =>
        cases hrec : combineAll vert minFreq total x ys with
        | error e2 => rw [hrec] at h; exact absurd h (by simp)
        | ok p =>
          rw [hrec] at h
          cases h
          simpa using ih _ _ hrec

theorem processClass_measure_lt (vert : List (Item × TSet)) (minFreq : ℤ)
    (total : Nat) :
    ∀ (c : EqClass) pushes recs,
      processClass vert minFreq total c = Except.ok (pushes, recs) →
      stackMeasure pushes < c.length.factorial := by
  intro c
  induction c with
  | nil =>
    intro pushes recs h
    simp only [processClass, Except.ok.injEq, Prod.mk.injEq] at h
    simp [stackMeasure, ← h.1, Nat.factorial]
  | cons x rest ih =>
    intro pushes recs h
    simp only [processClass] at h
    cases hca : combineAll vert minFreq total x rest with
    | error e => rw [hca] at h; exact absurd h (by simp)
    | ok p =>
      rw [hca] at h
      cases hpc : processClass vert minFreq total rest with
      | error e => rw [hpc] at h; exact absurd h (by simp)
      | ok q =>
        rw [hpc] at h
        cases h
        have hlen : p.1.length ≤ rest.length :=
          combineAll_length_le vert minFreq total x rest p.1 p.2 (by
            rw [hca])
        have hrec : stackMeasure q.1 < rest.length.factorial := ih _ _ (by rw [hpc])
        by_cases hemp : p.1.isEmpty
        · simp only [hemp, if_true]
          exact lt_of_lt_of_le hrec
            (by
              rw [List.length_cons, Nat.factorial_succ]
              exact Nat.le_mul_of_pos_left _ (Nat.succ_pos _))
        · simp only [hemp, Bool.false_eq_true, if_false]
          rw [List.length_cons, Nat.factorial_succ]
          have h1 : p.1.length.factorial ≤ rest.length.factorial :=
            Nat.factorial_le hlen
          have : stackMeasure (p.1 :: q.1) = p.1.length.factorial + stackMeasure q.1 := by
            simp [stackMeasure]
          rw [this]
          cases rest with
          | nil =>
            exfalso
            have : p.1.length = 0 := Nat.le_zero.mp hlen
            exact hemp (List.isEmpty_iff.mpr (List.length_eq_zero.mp this))
          | cons r rs =>
            calc p.1.length.factorial + stackMeasure q.1
                < p.1.length.factorial + (r :: rs).length.factorial :=
                  Nat.add_lt_add_left hrec _
              _ ≤ (r :: rs).length.factorial + (r :: rs).length.factorial := by
                  exact Nat.add_le_add_right h1 _
              _ ≤ ((r :: rs).length + 1) * (r :: rs).length.factorial := by
                  rw [Nat.add_mul, Nat.one_mul]
                  refine Nat.add_le_add_right ?_ _
                  exact Nat.le_mul_of_pos_left _ (Nat.succ_pos _)

theorem stackMeasure_step (pushes rest : List EqClass) (cls : EqClass)
    (h : stackMeasure pushes < cls.length.factorial) :
    stackMeasure (pushes.reverse ++ rest) < stackMeasure (cls :: rest) := by
  have hrev : stackMeasure pushes.reverse = stackMeasure pushes := by
    simp [stackMeasure, List.map_reverse, List.sum_reverse]
  have happ : stackMeasure (pushes.reverse ++ rest) =
      stackMeasure pushes.reverse + stackMeasure rest := by
    simp [stackMeasure]
  have hcons : stackMeasure (cls :: rest) =
      cls.length.factorial + stackMeasure rest := by
    simp [stackMeasure]
  rw [happ, hrev, hcons]
  exact Nat.add_lt_add_right h _

/-- The `while equiv_classes and (max_iter := max_iter - 1):` loop of
`eclat`.  The counter is decremented *before* each pop and the loop stops
as soon as the decremented value equals zero (any other value, including
the negative values reached from an unbounded budget of `0`, is truthy in
Python). -/
def eclatLoop (vert : List (Item × TSet)) (minFreq : ℤ) (total : Nat)
    (budget : ℤ) (stack : List EqClass) (acc : List FreqRec) :
    Except String (List FreqRec) :=
  match stack with
  | [] => Except.ok acc
  | cls :: rest =>
    if budget - 1 = 0 then Except.ok acc
    else
      match h : processClass vert minFreq total cls with
      | Except.error e => Except.error e
      | Except.ok pr =>
        eclatLoop vert minFreq total (budget - 1) (pr.1.reverse ++ rest) (acc ++ pr.2)
termination_by stackMeasure stack
decreasing_by
  exact stackMeasure_step pr.1 rest cls (processClass_measure_lt vert minFreq total cls pr.1 pr.2 h)

/-- `minFreq = ceil(min_support * total_transactions)`. -/
def minFreqOf (db : Obs) (min_support : ℚ) : ℤ :=
  ⌈min_support * (totalTransactions db : ℚ)⌉

/-- The vertical index after the initial prune
`vert_df[vert_df[transact_col].apply(len) >= minFreq]`. -/
def prunedVert (db : Obs) (min_support : ℚ) : List (Item × TSet) :=
  (vertical_transform db).filter
    (fun p => minFreqOf db min_support ≤ (p.2.card : ℤ))

/-- The singleton records emitted before the loop, in index order. -/
def singletonRecs (db : Obs) (min_support : ℚ) : List FreqRec :=
  (prunedVert db min_support).map
    (fun p => ⟨[p.1], p.2.card, (p.2.card : ℚ) / (totalTransactions db : ℚ)⟩)

/-- The seed equivalence class `equiv_classes[0]`. -/
def seedClass (db : Obs) (min_support : ℚ) : EqClass :=
  (prunedVert db min_support).map (fun p => ([p.1], p.2))

/-- `eclat(df, min_support, item_col, max_iter=...)`.  `max_iter = none`
models Python `None`; `if not max_iter: max_iter = 0` maps both `None`
and `0` to the unbounded budget `0`. -/
def eclat (db : Obs) (min_support : ℚ) (max_iter : Option ℤ) :
    Except String (List FreqRec) :=
  eclatLoop (prunedVert db min_support) (minFreqOf db min_support)
    (totalTransactions db) (max_iter.getD 0)
    [seedClass db min_support] (singletonRecs db min_support)

/-- Reference loop counting pops explicitly: `eclatLoopFuel k` performs at
most `k` pops of the stack and then stops.  Used to state how many loop
iterations a positive `max_iter` budget actually allows. -/
def eclatLoopFuel (vert : List (Item × TSet)) (minFreq : ℤ) (total : Nat) :
    Nat → List EqClass → List FreqRec → Except String (List FreqRec)
  | 0, _, acc => Except.ok acc
  | _ + 1, [], acc => Except.ok acc
  | k + 1, cls :: rest, acc =>
    match processClass vert minFreq total cls with
    | Except.error e => Except.error e
    | Except.ok pr =>
      eclatLoopFuel vert minFreq total k (pr.1.reverse ++ rest) (acc ++ pr.2)

/-- The pipeline of `eclat` run with the pop-counting loop. -/
def eclatFuelRun (db : Obs) (min_support : ℚ) (k : Nat) :
    Except String (List FreqRec) :=
  eclatLoopFuel (prunedVert db min_support) (minFreqOf db min_support)
    (totalTransactions db) k [seedClass db min_support]
    (singletonRecs db min_support)

/-- Reference loop with no iteration budget at all: runs until the stack
empties. -/
def eclatLoopNB (vert : List (Item × TSet)) (minFreq : ℤ) (total : Nat)
    (stack : List EqClass) (acc : List FreqRec) :
    Except String (List FreqRec) :=
  match stack with
  | [] => Except.ok acc
  | cls :: rest =>
    match h : processClass vert minFreq total cls with
    | Except.error e => Except.error e
    | Except.ok pr =>
      eclatLoopNB vert minFreq total (pr.1.reverse ++ rest) (acc ++ pr.2)
termination_by stackMeasure stack
decreasing_by
  exact stackMeasure_step pr.1 rest cls (processClass_measure_lt vert minFreq total cls pr.1 pr.2 h)

/-- The pipeline of `eclat` run with the budget-free loop: the table the
search produces when it terminates by the stack emptying. -/
def eclatRunNB (db : Obs) (min_support : ℚ) : Except String (List FreqRec) :=
  eclatLoopNB (prunedVert db min_support) (minFreqOf db min_support)
    (totalTransactions db) [seedClass db min_support]
    (singletonRecs db min_support)

/-! ### The rule deriver (`powerset`, `assoc_rules`) -/

/-- `itertools.combinations(l, r)`: all length-`r` subsequences of `l`, in
lexicographic order of positions. -/
def combinationsL {α : Type} : Nat → List α → List (List α)
  | 0, _ => [[]]
  | _ + 1, [] => []
  | r + 1, x :: xs =>
    (combinationsL r xs).map (fun u => x :: u) ++ combinationsL (r + 1) xs

/-- `powerset(iterable)` from the source: `chain.from_iterable(combinations(iterable, r)
for r in range(1, len(iterable)))` — every subsequence of length `1` to
`len - 1` (proper and non-empty). -/
def powersetPy {α : Type} (l : List α) : List (List α) :=
  (List.range' 1 (l.length - 1)).flatMap (fun r => combinationsL r l)

/-- The `(antecedent, consequent)` splits derived from one itemset: for
every antecedent in `powerset(itemset)`, the consequent keeps the items of
the itemset not occurring in the antecedent, in itemset order. -/
def splitsOf (itemset : List Item) : List (List Item × List Item) :=
  (powersetPy itemset).map
    (fun a => (a, itemset.filter (fun x => ¬ x ∈ a)))

/-- `Counter(lis) == Counter(target)`: multiset equality of item lists. -/
def counterEq (l1 l2 : List Item) : Bool :=
  decide ((l1 : Multiset Item) = (l2 : Multiset Item))

/-- `frequent_df[frequent_df['itemsets'].apply(lambda lis: Counter(lis) ==
Counter(target))]...values[0]`: the first row of the frequent table whose
itemset is multiset-equal to the target, if any. -/
def lookupFreqRow (t : List FreqRec) (target : List Item) : Option FreqRec :=
  t.find? (fun r => counterEq r.itemset target)

/-- One row of the rule table: `(rule, support, confidence, lift)`. -/
structure RuleRec where
  rule : List Item × List Item
  support : ℚ
  confidence : ℚ
  lift : ℚ
deriving DecidableEq, Repr

/-- The body of the `for rule in rules:` loop for one split: look up the
full itemset, the antecedent and the consequent (in that order, each
lookup failure raising `ValueError(f'Frequent itemset ... not found')`,
modelled by an error value carrying the missing itemset), then build the
rule record. -/
def mkRule (t : List FreqRec) (rule : List Item × List Item) :
    Except (List Item) RuleRec :=
  match lookupFreqRow t (rule.1 ++ rule.2) with
  | none => Except.error (rule.1 ++ rule.2)
  | some rowFull =>
    match lookupFreqRow t rule.1 with
    | none => Except.error rule.1
    | some rowAnt =>
      match lookupFreqRow t rule.2 with
      | none => Except.error rule.2
      | some rowCons =>
        let conf : ℚ := (rowFull.freq : ℚ) / (rowAnt.freq : ℚ)
        Except.ok ⟨rule, rowFull.supp, conf, conf / rowCons.supp⟩

/-- The `for rule in rules:` loop: first failure aborts the whole call. -/
def mkRules (t : List FreqRec) :
    List (List Item × List Item) → Except (List Item) (List RuleRec)
  | [] => Except.ok []
  | r :: rs =>
    match mkRule t r with
    | Except.error e => Except.error e
    | Except.ok rr =>
      match mkRules t rs with
      | Except.error e => Except.error e
      | Except.ok rest => Except.ok (rr :: rest)

/-- `assoc_rules(itemsets, frequent_df)`. -/
def assoc_rules (itemsets : List (List Item)) (frequent : List FreqRec) :
    Except (List Item) (List RuleRec) :=
  mkRules frequent (itemsets.flatMap splitsOf)

/-! ### Semantic notions used by the specification -/

/-- The set of transactions containing every item of the list `S`. -/
def coverSet (db : Obs) (S : List Item) : TSet :=
  (allTids db).filter (fun t => ∀ x ∈ S, t ∈ tidsOf db x)

/-- The set of transactions containing every item of the finset `S`. -/
def coverSetF (db : Obs) (S : Finset Item) : TSet :=
  (allTids db).filter (fun t => ∀ x ∈ S, t ∈ tidsOf db x)

/-- True support of an itemset: fraction of the distinct transactions
containing all its items. -/
def supportOf (db : Obs) (S : Finset Item) : ℚ :=
  ((coverSetF db S).card : ℚ) / (totalTransactions db : ℚ)

/-! ### Basic facts about the sort and the vertical index -/

theorem sortByKey_perm {α : Type} (key : α → Nat) (l : List α) :
    List.Perm (sortByKey key l) l :=
  List.perm_insertionSort _ l

theorem sortByKey_pairwise {α : Type} (key : α → Nat) (l : List α) :
    (sortByKey key l).Pairwise (fun a b => key a ≤ key b) := by
  haveI : IsTotal α (fun a b => key a ≤ key b) :=
    ⟨fun a b => Nat.le_total (key a) (key b)⟩
  haveI : IsTrans α (fun a b => key a ≤ key b) :=
    ⟨fun _ _ _ hab hbc => le_trans hab hbc⟩
  exact List.sorted_insertionSort _ l

theorem sortByKey_eq_of_pairwise {α : Type} {key : α → Nat} {l : List α}
    (h : l.Pairwise (fun a b => key a ≤ key b)) : sortByKey key l = l :=
  List.Sorted.insertionSort_eq h

theorem mem_tidsOf {db : Obs} {x : Item} {t : Tid} :
    t ∈ tidsOf db x ↔ (t, x) ∈ db := by
  simp only [tidsOf, List.mem_toFinset, List.mem_map, List.mem_filter]
  constructor
  · rintro ⟨⟨t', x'⟩, ⟨hmem, hx⟩, ht⟩
    simp only [decide_eq_true_eq] at hx
    cases ht
    cases hx
    exact hmem
  · intro h
    exact ⟨(t, x), ⟨h, by simp⟩, rfl⟩

theorem tidsOf_subset_allTids (db : Obs) (x : Item) :
    tidsOf db x ⊆ allTids db := by
  intro t ht
  rw [mem_tidsOf] at ht
  simp only [allTids, List.mem_toFinset, List.mem_map]
  exact ⟨(t, x), ht, rfl⟩

theorem mem_itemsOf {db : Obs} {x : Item} :
    x ∈ itemsOf db ↔ ∃ t, (t, x) ∈ db := by
  simp only [itemsOf, List.mem_toFinset, List.mem_map]
  constructor
  · rintro ⟨⟨t, x'⟩, hmem, hx⟩
    cases hx
    exact ⟨t, hmem⟩
  · rintro ⟨t, h⟩
    exact ⟨(t, x), h, rfl⟩

theorem tidsOf_nonempty_of_mem_items {db : Obs} {x : Item}
    (h : x ∈ itemsOf db) : (tidsOf db x).Nonempty := by
  obtain ⟨t, ht⟩ := mem_itemsOf.mp h
  exact ⟨t, mem_tidsOf.mpr ht⟩

theorem totalTransactions_pos_of_mem_items {db : Obs} {x : Item}
    (h : x ∈ itemsOf db) : 0 < totalTransactions db := by
  obtain ⟨t, ht⟩ := mem_itemsOf.mp h
  have : t ∈ allTids db := tidsOf_subset_allTids db x (mem_tidsOf.mpr ht)
  exact Finset.card_pos.mpr ⟨t, this⟩

theorem mem_vertical_transform {db : Obs} {p : Item × TSet} :
    p ∈ vertical_transform db ↔ p.1 ∈ itemsOf db ∧ p.2 = tidsOf db p.1 := by
  rw [vertical_transform, (sortByKey_perm _ _).mem_iff]
  simp only [List.mem_map, Finset.mem_sort]
  constructor
  · rintro ⟨x, hx, rfl⟩
    exact ⟨hx, rfl⟩
  · rintro ⟨h1, h2⟩
    exact ⟨p.1, h1, by rw [← h2]⟩

theorem vertical_transform_nodup_fst (db : Obs) :
    ((vertical_transform db).map Prod.fst).Nodup := by
  have hperm : List.Perm ((vertical_transform db).map Prod.fst)
      ((((itemsOf db).sort (· ≤ ·)).map (fun x => (x, tidsOf db x))).map Prod.fst) :=
    (sortByKey_perm _ _).map Prod.fst
  rw [hperm.nodup_iff]
  rw [List.map_map]
  have : (Prod.fst ∘ fun x => (x, tidsOf db x)) = id := rfl
  rw [this, List.map_id]
  exact (itemsOf db).sort_nodup _

theorem vertical_transform_pairwise (db : Obs) :
    (vertical_transform db).Pairwise (fun p q => p.2.card ≤ q.2.card) :=
  sortByKey_pairwise _ _

theorem mem_prunedVert {db : Obs} {s : ℚ} {p : Item × TSet} :
    p ∈ prunedVert db s ↔
      p.1 ∈ itemsOf db ∧ p.2 = tidsOf db p.1 ∧
        minFreqOf db s ≤ (p.2.card : ℤ) := by
  rw [prunedVert, List.mem_filter]
  rw [mem_vertical_transform]
  simp only [decide_eq_true_eq]
  tauto

theorem prunedVert_sublist (db : Obs) (s : ℚ) :
    List.Sublist (prunedVert db s) (vertical_transform db) :=
  List.filter_sublist _

theorem prunedVert_nodup_fst (db : Obs) (s : ℚ) :
    ((prunedVert db s).map Prod.fst).Nodup :=
  (vertical_transform_nodup_fst db).sublist
    ((prunedVert_sublist db s).map Prod.fst)

theorem prunedVert_pairwise (db : Obs) (s : ℚ) :
    (prunedVert db s).Pairwise (fun p q => p.2.card ≤ q.2.card) :=
  (vertical_transform_pairwise db).sublist (prunedVert_sublist db s)

theorem lookupKey_eq {db : Obs} {s : ℚ} {p : Item × TSet}
    (hp : p ∈ prunedVert db s) :
    lookupKey (prunedVert db s) p.1 = p.2.card := by
  rw [lookupKey]
  cases hfind : (prunedVert db s).find? (fun q => q.1 = p.1) with
  | none =>
    exfalso
    have := List.find?_eq_none.mp hfind p hp
    simp at this
  | some q =>
    have hqmem : q ∈ prunedVert db s := List.mem_of_find?_eq_some hfind
    have hq1 : q.1 = p.1 := by
      have := List.find?_some hfind
      simpa using this
    have h1 := (mem_prunedVert.mp hqmem).2.1
    have h2 := (mem_prunedVert.mp hp).2.1
    show q.2.card = p.2.card
    rw [h1, h2, hq1]

/-- The items of the pruned vertical index, in index order: the canonical
item order of the search. -/
def vertItems (db : Obs) (s : ℚ) : List Item :=
  (prunedVert db s).map Prod.fst

theorem vertItems_nodup (db : Obs) (s : ℚ) : (vertItems db s).Nodup :=
  prunedVert_nodup_fst db s

theorem mem_vertItems {db : Obs} {s : ℚ} {x : Item} :
    x ∈ vertItems db s ↔
      x ∈ itemsOf db ∧ minFreqOf db s ≤ ((tidsOf db x).card : ℤ) := by
  simp only [vertItems, List.mem_map]
  constructor
  · rintro ⟨p, hp, rfl⟩
    obtain ⟨h1, h2, h3⟩ := mem_prunedVert.mp hp
    rw [h2] at h3
    exact ⟨h1, h3⟩
  · rintro ⟨h1, h2⟩
    exact ⟨(x, tidsOf db x), mem_prunedVert.mpr ⟨h1, rfl, h2⟩, rfl⟩

theorem lookupKey_eq_of_mem_vertItems {db : Obs} {s : ℚ} {x : Item}
    (hx : x ∈ vertItems db s) :
    lookupKey (prunedVert db s) x = (tidsOf db x).card := by
  obtain ⟨p, hp, rfl⟩ := List.mem_map.mp hx
  rw [lookupKey_eq hp, (mem_prunedVert.mp hp).2.1]

theorem vertItems_pairwise_key (db : Obs) (s : ℚ) :
    (vertItems db s).Pairwise
      (fun a b => lookupKey (prunedVert db s) a ≤ lookupKey (prunedVert db s) b) := by
  rw [vertItems, List.pairwise_map]
  refine (prunedVert_pairwise db s).imp_of_mem ?_
  intro p q hp hq h
  rw [lookupKey_eq hp, lookupKey_eq hq]
  exact h

/-! ### Cover sets -/

theorem mem_coverSet {db : Obs} {S : List Item} {t : Tid} :
    t ∈ coverSet db S ↔ t ∈ allTids db ∧ ∀ x ∈ S, t ∈ tidsOf db x := by
  simp [coverSet]

theorem coverSet_singleton (db : Obs) (x : Item) :
    coverSet db [x] = tidsOf db x := by
  ext t
  rw [mem_coverSet]
  simp only [List.mem_singleton, forall_eq]
  exact ⟨fun h => h.2, fun h => ⟨tidsOf_subset_allTids db x h, h⟩⟩

theorem coverSet_anti {db : Obs} {S1 S2 : List Item}
    (h : ∀ x ∈ S1, x ∈ S2) : coverSet db S2 ⊆ coverSet db S1 := by
  intro t ht
  rw [mem_coverSet] at ht ⊢
  exact ⟨ht.1, fun x hx => ht.2 x (h x hx)⟩

theorem coverSet_append (db : Obs) (l1 l2 : List Item) :
    coverSet db (l1 ++ l2) = coverSet db l1 ∩ coverSet db l2 := by
  ext t
  simp only [Finset.mem_inter, mem_coverSet, List.mem_append]
  constructor
  · rintro ⟨h1, h2⟩
    exact ⟨⟨h1, fun x hx => h2 x (Or.inl hx)⟩, ⟨h1, fun x hx => h2 x (Or.inr hx)⟩⟩
  · rintro ⟨⟨h1, h2⟩, ⟨-, h4⟩⟩
    exact ⟨h1, fun x hx => hx.elim (h2 x) (h4 x)⟩

theorem coverSet_pair_inter (db : Obs) (o : List Item) (a b : Item) :
    coverSet db (o ++ [a]) ∩ coverSet db (o ++ [b]) =
      coverSet db (o ++ [a, b]) := by
  have h : o ++ [a, b] = (o ++ [a]) ++ [b] := by simp
  rw [coverSet_append db o [a], coverSet_append db o [b], h,
    coverSet_append db (o ++ [a]) [b], coverSet_append db o [a]]
  ext t
  simp only [Finset.mem_inter]
  tauto

theorem coverSet_perm {db : Obs} {S1 S2 : List Item}
    (h : ∀ x, x ∈ S1 ↔ x ∈ S2) : coverSet db S1 = coverSet db S2 :=
  Finset.Subset.antisymm (coverSet_anti (fun x hx => (h x).mpr hx))
    (coverSet_anti (fun x hx => (h x).mp hx))

theorem coverSet_eq_coverSetF (db : Obs) (l : List Item) :
    coverSet db l = coverSetF db l.toFinset := by
  ext t
  simp [coverSet, coverSetF]

theorem coverSetF_anti {db : Obs} {S1 S2 : Finset Item} (h : S1 ⊆ S2) :
    coverSetF db S2 ⊆ coverSetF db S1 := by
  intro t ht
  simp only [coverSetF, Finset.mem_filter] at ht ⊢
  exact ⟨ht.1, fun x hx => ht.2 x (h hx)⟩

/-! ### The common-stem computation on two class members -/

theorem getLastD_append_single (l : List Item) (a d : Item) :
    (l ++ [a]).getLastD d = a := by
  induction l generalizing d with
  | nil => rfl
  | cons b l ih => simpa [List.getLastD] using ih b

theorem firstDiff_append (o : List Item) (a b : Item) :
    firstDiff (o ++ [a]) (o ++ [b]) =
      if a = b then none else some o.length := by
  induction o with
  | nil =>
    by_cases h : a = b <;> simp [firstDiff, h]
  | cons c o ih =>
    show (if c = c then (firstDiff (o ++ [a]) (o ++ [b])).map (· + 1)
        else some 0) = _
    rw [if_pos rfl, ih]
    by_cases h : a = b
    · simp [h]
    · simp [h]

theorem find_common_stem_spec (o : List Item) (a b : Item) :
    find_common_stem (o ++ [a]) (o ++ [b]) = Except.ok o := by
  unfold find_common_stem
  rw [if_pos (by simp), if_neg (by simp), firstDiff_append]
  by_cases h : a = b
  · rw [if_pos h]
    have hl : (o ++ [a]).length - 1 = o.length := by simp
    simp only [hl, List.take_left]
  · rw [if_neg h]
    simp only [List.take_left]

/-! ### Characterization of one step of the search

Every equivalence class reachable from the seed consists of the itemsets
`o ++ [z]` for the tails `z` of a tail list `zs`, each paired with its
exact cover set, where `o ++ zs` is a subsequence of the pruned vertical
index's item order. -/

/-- The record emitted for a discovered itemset. -/
def mkFreqRec (db : Obs) (total : Nat) (l : List Item) : FreqRec :=
  ⟨l, (coverSet db l).card, ((coverSet db l).card : ℚ) / (total : ℚ)⟩

/-- The class element for stem `o` and tail `z`. -/
def elemOf (db : Obs) (o : List Item) (z : Item) : EqElem :=
  (o ++ [z], coverSet db (o ++ [z]))

/-- The invariant of every class on the search stack. -/
def ClassInv (db : Obs) (s : ℚ) (o zs : List Item) (C : EqClass) : Prop :=
  C = zs.map (elemOf db o) ∧ List.Sublist (o ++ zs) (vertItems db s)

/-- The pruning test of a candidate pair: the candidate `o ++ [z, b]`
survives iff its cover reaches `minFreq`. -/
def passB (db : Obs) (mF : ℤ) (o : List Item) (z : Item) (b : Item) : Bool :=
  decide (mF ≤ ((coverSet db (o ++ [z, b])).card : ℤ))

theorem elemOf_append (db : Obs) (o : List Item) (z b : Item) :
    elemOf db (o ++ [z]) b = (o ++ [z, b], coverSet db (o ++ [z, b])) := by
  rw [elemOf, List.append_assoc]
  rfl

theorem combineStep_spec {db : Obs} {s : ℚ} (o : List Item) (z b : Item)
    (hsub : List.Sublist (o ++ [z, b]) (vertItems db s)) :
    combineStep (prunedVert db s) (minFreqOf db s) (totalTransactions db)
      (elemOf db o z) (elemOf db o b) =
    Except.ok
      (if passB db (minFreqOf db s) o z b then
        some ((o ++ [z, b], coverSet db (o ++ [z, b])),
          mkFreqRec db (totalTransactions db) (o ++ [z, b]))
      else none) := by
  have hnt : (elemOf db o z).2 ∩ (elemOf db o b).2 = coverSet db (o ++ [z, b]) :=
    coverSet_pair_inter db o z b
  rw [combineStep]
  rw [hnt]
  by_cases hc : ((coverSet db (o ++ [z, b])).card : ℤ) < minFreqOf db s
  · rw [if_pos hc]
    have : passB db (minFreqOf db s) o z b = false := by
      simp only [passB, decide_eq_false_iff_not, not_le]
      exact hc
    rw [this]
    simp
  · rw [if_neg hc]
    have hpass : passB db (minFreqOf db s) o z b = true := by
      simp only [passB, decide_eq_true_eq]
      exact not_lt.mp hc
    rw [hpass, if_pos rfl]
    have hstem : find_common_stem (elemOf db o z).1 (elemOf db o b).1 =
        Except.ok o := find_common_stem_spec o z b
    rw [hstem]
    have hlz : (elemOf db o z).1.getLastD 0 = z := getLastD_append_single o z 0
    have hlb : (elemOf db o b).1.getLastD 0 = b := getLastD_append_single o b 0
    rw [hlz, hlb]
    have hsort : sortByKey (lookupKey (prunedVert db s)) (o ++ [z, b]) =
        o ++ [z, b] :=
      sortByKey_eq_of_pairwise ((vertItems_pairwise_key db s).sublist hsub)
    dsimp only
    rw [hsort]
    rfl

theorem combineAll_spec {db : Obs} {s : ℚ} (o : List Item) (z : Item)
    (bs : List Item)
    (hsub : List.Sublist (o ++ z :: bs) (vertItems db s)) :
    combineAll (prunedVert db s) (minFreqOf db s) (totalTransactions db)
      (elemOf db o z) (bs.map (elemOf db o)) =
    Except.ok
      ((bs.filter (passB db (minFreqOf db s) o z)).map (elemOf db (o ++ [z])),
       (bs.filter (passB db (minFreqOf db s) o z)).map
         (fun b => mkFreqRec db (totalTransactions db) (o ++ [z, b]))) := by
  induction bs with
  | nil => rfl
  | cons b bs ih =>
    have h1 : List.Sublist (o ++ [z, b]) (vertItems db s) := by
      refine List.Sublist.trans ?_ hsub
      refine (List.Sublist.append_left ?_ o)
      exact (List.cons_sublist_cons.mpr
        (List.cons_sublist_cons.mpr (List.nil_sublist bs)))
    have h2 : List.Sublist (o ++ z :: bs) (vertItems db s) := by
      refine List.Sublist.trans ?_ hsub
      refine (List.Sublist.append_left ?_ o)
      exact List.cons_sublist_cons.mpr (List.sublist_cons_self b bs)
    simp only [List.map_cons, combineAll, combineStep_spec o z b h1]
    cases hpass : passB db (minFreqOf db s) o z b with
    | false =>
      simp only [Bool.false_eq_true, if_false]
      rw [List.filter_cons_of_neg (by simp [hpass])]
      exact ih h2
    | true =>
      simp only [if_true]
      rw [ih h2]
      rw [List.filter_cons_of_pos (by simp [hpass])]
      simp only [List.map_cons]
      rw [elemOf_append]

theorem classInv_seed (db : Obs) (s : ℚ) :
    ClassInv db s [] (vertItems db s) (seedClass db s) := by
  constructor
  · rw [seedClass, vertItems, List.map_map]
    apply List.map_congr_left
    intro p hp
    have h2 := (mem_prunedVert.mp hp).2.1
    show ([p.1], p.2) = ([p.1], coverSet db [p.1])
    rw [coverSet_singleton, h2]
  · simp

/-- The records emitted by one popped class with stem `o` and tails `zs`. -/
def classRecs (db : Obs) (mF : ℤ) (total : Nat) (o : List Item) :
    List Item → List FreqRec
  | [] => []
  | z :: t =>
    (t.filter (passB db mF o z)).map (fun b => mkFreqRec db total (o ++ [z, b]))
      ++ classRecs db mF total o t

/-- The `(stem, tails)` data of the classes pushed by one popped class. -/
def classPushes (db : Obs) (mF : ℤ) (o : List Item) :
    List Item → List (List Item × List Item)
  | [] => []
  | z :: t =>
    (if (t.filter (passB db mF o z)).isEmpty then []
     else [(o ++ [z], t.filter (passB db mF o z))]) ++ classPushes db mF o t

theorem processClass_spec {db : Obs} {s : ℚ} (o zs : List Item)
    (hsub : List.Sublist (o ++ zs) (vertItems db s)) :
    processClass (prunedVert db s) (minFreqOf db s) (totalTransactions db)
      (zs.map (elemOf db o)) =
    Except.ok
      ((classPushes db (minFreqOf db s) o zs).map
         (fun d => d.2.map (elemOf db d.1)),
       classRecs db (minFreqOf db s) (totalTransactions db) o zs) := by
  induction zs with
  | nil => rfl
  | cons z t ih =>
    have h2 : List.Sublist (o ++ z :: t) (vertItems db s) := hsub
    have h3 : List.Sublist (o ++ t) (vertItems db s) := by
      refine List.Sublist.trans ?_ hsub
      exact List.Sublist.append_left (List.sublist_cons_self z t) o
    simp only [List.map_cons, processClass, combineAll_spec o z t h2, ih h3]
    rw [classRecs, classPushes]
    by_cases hemp : (t.filter (passB db (minFreqOf db s) o z)).isEmpty
    · rw [if_pos hemp]
      have : ((t.filter (passB db (minFreqOf db s) o z)).map
          (elemOf db (o ++ [z]))).isEmpty = true := by
        rw [List.isEmpty_iff] at hemp ⊢
        simp [hemp]
      rw [this]
      have hrecs : (t.filter (passB db (minFreqOf db s) o z)).map
          (fun b => mkFreqRec db (totalTransactions db) (o ++ [z, b])) = [] := by
        rw [List.isEmpty_iff] at hemp
        simp [hemp]
      rw [hrecs]
      simp
    · rw [if_neg hemp]
      have : ((t.filter (passB db (minFreqOf db s) o z)).map
          (elemOf db (o ++ [z]))).isEmpty = false := by
        cases hft : t.filter (passB db (minFreqOf db s) o z) with
        | nil => rw [hft] at hemp; exact absurd rfl hemp
        | cons a l => simp
      rw [this]
      simp

theorem classPushes_sublist {db : Obs} {s : ℚ} {mF : ℤ} (o zs : List Item)
    (hsub : List.Sublist (o ++ zs) (vertItems db s)) :
    ∀ d ∈ classPushes db mF o zs,
      List.Sublist (d.1 ++ d.2) (vertItems db s) := by
  induction zs with
  | nil => intro d hd; exact absurd hd (by simp [classPushes])
  | cons z t ih =>
    intro d hd
    rw [classPushes, List.mem_append] at hd
    have h3 : List.Sublist (o ++ t) (vertItems db s) :=
      List.Sublist.trans (List.Sublist.append_left (List.sublist_cons_self z t) o) hsub
    rcases hd with hd | hd
    · by_cases hemp : (t.filter (passB db mF o z)).isEmpty
      · rw [if_pos hemp] at hd
        exact absurd hd (by simp)
      · rw [if_neg hemp, List.mem_singleton] at hd
        subst hd
        show List.Sublist ((o ++ [z]) ++ t.filter (passB db mF o z)) _
        rw [List.append_assoc]
        refine List.Sublist.trans ?_ hsub
        refine List.Sublist.append_left ?_ o
        show List.Sublist (z :: t.filter (passB db mF o z)) (z :: t)
        exact List.cons_sublist_cons.mpr (List.filter_sublist t)
    · exact ih h3 d hd

/-- Soundness data carried by every emitted record. -/
def GoodRec (db : Obs) (s : ℚ) (r : FreqRec) : Prop :=
  r.itemset ≠ [] ∧ (∀ x ∈ r.itemset, x ∈ itemsOf db) ∧
    r.freq = (coverSet db r.itemset).card ∧
    minFreqOf db s ≤ (r.freq : ℤ) ∧
    r.supp = (r.freq : ℚ) / (totalTransactions db : ℚ)

theorem classRecs_good {db : Obs} {s : ℚ} (o zs : List Item)
    (hsub : List.Sublist (o ++ zs) (vertItems db s)) :
    ∀ r ∈ classRecs db (minFreqOf db s) (totalTransactions db) o zs,
      GoodRec db s r := by
  induction zs with
  | nil => intro r hr; exact absurd hr (by simp [classRecs])
  | cons z t ih =>
    intro r hr
    rw [classRecs, List.mem_append] at hr
    have h3 : List.Sublist (o ++ t) (vertItems db s) :=
      List.Sublist.trans (List.Sublist.append_left (List.sublist_cons_self z t) o) hsub
    rcases hr with hr | hr
    · obtain ⟨b, hb, rfl⟩ := List.mem_map.mp hr
      rw [List.mem_filter] at hb
      have hbsub : List.Sublist (o ++ [z, b]) (vertItems db s) := by
        refine List.Sublist.trans ?_ hsub
        refine List.Sublist.append_left ?_ o
        exact List.cons_sublist_cons.mpr
          (List.singleton_sublist.mpr hb.1)
      refine ⟨by simp [mkFreqRec], ?_, rfl, ?_, rfl⟩
      · intro x hx
        have : x ∈ vertItems db s := hbsub.subset (by simpa [mkFreqRec] using hx)
        exact (mem_vertItems.mp this).1
      · have := hb.2
        rw [passB, decide_eq_true_eq] at this
        exact this
    · exact ih h3 r hr

theorem singletonRecs_good (db : Obs) (s : ℚ) :
    ∀ r ∈ singletonRecs db s, GoodRec db s r := by
  intro r hr
  rw [singletonRecs, List.mem_map] at hr
  obtain ⟨p, hp, rfl⟩ := hr
  obtain ⟨h1, h2, h3⟩ := mem_prunedVert.mp hp
  refine ⟨by simp, ?_, ?_, ?_, rfl⟩
  · intro x hx
    rw [List.mem_singleton] at hx
    subst hx
    exact h1
  · show p.2.card = (coverSet db [p.1]).card
    rw [coverSet_singleton, ← h2]
  · exact h3

theorem eclatLoop_ok {db : Obs} {s : ℚ} :
    ∀ (n : Nat) (stack : List EqClass) (acc : List FreqRec) (budget : ℤ),
      stackMeasure stack < n →
      (∀ C ∈ stack, ∃ o zs, ClassInv db s o zs C) →
      ∃ out,
        eclatLoop (prunedVert db s) (minFreqOf db s) (totalTransactions db)
          budget stack acc = Except.ok out ∧
        ∀ r ∈ out, r ∈ acc ∨ GoodRec db s r := by
  intro n
  induction n with
  | zero => intro stack acc budget h _; exact absurd h (by omega)
  | succ n ih =>
    intro stack acc budget hm hinv
    cases stack with
    | nil =>
      rw [eclatLoop]
      exact ⟨acc, rfl, fun r hr => Or.inl hr⟩
    | cons cls rest =>
      obtain ⟨o, zs, hC1, hC2⟩ := hinv cls (List.mem_cons_self cls rest)
      rw [eclatLoop]
      by_cases hb : budget - 1 = 0
      · rw [if_pos hb]
        exact ⟨acc, rfl, fun r hr => Or.inl hr⟩
      · rw [if_neg hb]
        rw [hC1, processClass_spec o zs hC2]
        have hmeas : stackMeasure
            (((classPushes db (minFreqOf db s) o zs).map
              (fun d => d.2.map (elemOf db d.1))).reverse ++ rest) < n := by
          have hlt : stackMeasure
              (((classPushes db (minFreqOf db s) o zs).map
                (fun d => d.2.map (elemOf db d.1))).reverse ++ rest) <
              stackMeasure ((zs.map (elemOf db o)) :: rest) := by
            refine stackMeasure_step _ _ _ ?_
            exact processClass_measure_lt _ _ _ _ _ _
              (processClass_spec o zs hC2)
          rw [hC1] at hm
          omega
        have hinv' : ∀ C ∈ ((classPushes db (minFreqOf db s) o zs).map
            (fun d => d.2.map (elemOf db d.1))).reverse ++ rest,
            ∃ o' zs', ClassInv db s o' zs' C := by
          intro C hC
          rw [List.mem_append, List.mem_reverse] at hC
          rcases hC with hC | hC
          · rw [List.mem_map] at hC
            obtain ⟨d, hd, rfl⟩ := hC
            exact ⟨d.1, d.2, rfl, classPushes_sublist o zs hC2 d hd⟩
          · exact hinv C (List.mem_cons_of_mem cls hC)
        obtain ⟨out, hout, hgood⟩ := ih _
          (acc ++ classRecs db (minFreqOf db s) (totalTransactions db) o zs)
          (budget - 1) hmeas hinv'
        refine ⟨out, hout, ?_⟩
        intro r hr
        rcases hgood r hr with hacc | hgr
        · rw [List.mem_append] at hacc
          rcases hacc with h | h
          · exact Or.inl h
          · exact Or.inr (classRecs_good o zs hC2 r h)
        · exact Or.inr hgr

/-- Every execution of `eclat` succeeds: the pipeline never reaches the
error branches of `_find_common_prefix`. -/
theorem eclat_ok (db : Obs) (s : ℚ) (cap : Option ℤ) :
    ∃ recs, eclat db s cap = Except.ok recs ∧
      ∀ r ∈ recs, GoodRec db s r := by
  obtain ⟨out, hout, hgood⟩ := @eclatLoop_ok db s
    (stackMeasure [seedClass db s] + 1) [seedClass db s]
    (singletonRecs db s) ((cap).getD 0) (by omega)
    (fun C hC => by
      rw [List.mem_singleton] at hC
      subst hC
      exact ⟨[], vertItems db s, classInv_seed db s⟩)
  refine ⟨out, hout, ?_⟩
  intro r hr
  rcases hgood r hr with h | h
  · exact singletonRecs_good db s r h
  · exact h

/-! ### The iteration budget -/

theorem eclatLoop_eq_fuel (vert : List (Item × TSet)) (mF : ℤ) (total : Nat) :
    ∀ (k : Nat) (stack : List EqClass) (acc : List FreqRec),
      eclatLoop vert mF total ((k : ℤ) + 1) stack acc =
        eclatLoopFuel vert mF total k stack acc := by
  intro k
  induction k with
  | zero =>
    intro stack acc
    cases stack with
    | nil => rw [eclatLoop]; rfl
    | cons cls rest =>
      rw [eclatLoop, if_pos (by norm_num)]
      rfl
  | succ k ih =>
    intro stack acc
    cases stack with
    | nil => rw [eclatLoop]; rfl
    | cons cls rest =>
      rw [eclatLoop, if_neg (by push_cast; omega)]
      cases hpc : processClass vert mF total cls with
      | error e =>
        rw [eclatLoopFuel, hpc]
      | ok pr =>
        rw [eclatLoopFuel, hpc]
        show eclatLoop vert mF total ((↑(k + 1) + 1) - 1)
            (pr.1.reverse ++ rest) (acc ++ pr.2) =
          eclatLoopFuel vert mF total k (pr.1.reverse ++ rest) (acc ++ pr.2)
        have harith : ((↑(k + 1) : ℤ) + 1) - 1 = (k : ℤ) + 1 := by push_cast; ring
        rw [harith, ih]

theorem eclatLoop_eq_NB (vert : List (Item × TSet)) (mF : ℤ) (total : Nat) :
    ∀ (n : Nat) (stack : List EqClass) (acc : List FreqRec) (b : ℤ),
      stackMeasure stack < n → b ≤ 0 →
      eclatLoop vert mF total b stack acc = eclatLoopNB vert mF total stack acc := by
  intro n
  induction n with
  | zero => intro stack acc b h _; exact absurd h (by omega)
  | succ n ih =>
    intro stack acc b hm hb
    cases stack with
    | nil => rw [eclatLoop, eclatLoopNB]
    | cons cls rest =>
      rw [eclatLoop, if_neg (by omega), eclatLoopNB]
      cases hpc : processClass vert mF total cls with
      | error e => rfl
      | ok pr =>
        show eclatLoop vert mF total (b - 1) (pr.1.reverse ++ rest) (acc ++ pr.2) =
          eclatLoopNB vert mF total (pr.1.reverse ++ rest) (acc ++ pr.2)
        have hlt : stackMeasure (pr.1.reverse ++ rest) <
            stackMeasure (cls :: rest) :=
          stackMeasure_step pr.1 rest cls
            (processClass_measure_lt vert mF total cls pr.1 pr.2 hpc)
        exact ih _ _ _ (by omega) (by omega)

theorem eclat_none_eq_NB (db : Obs) (s : ℚ) :
    eclat db s none = eclatRunNB db s := by
  rw [eclat, eclatRunNB]
  exact eclatLoop_eq_NB _ _ _ (stackMeasure [seedClass db s] + 1) _ _ _
    (by omega) (by norm_num)

theorem eclat_zero_eq_NB (db : Obs) (s : ℚ) :
    eclat db s (some 0) = eclatRunNB db s := by
  rw [eclat, eclatRunNB]
  exact eclatLoop_eq_NB _ _ _ (stackMeasure [seedClass db s] + 1) _ _ _
    (by omega) (by norm_num)

theorem eclat_succ_eq_fuel (db : Obs) (s : ℚ) (k : Nat) :
    eclat db s (some ((k : ℤ) + 1)) = eclatFuelRun db s k := by
  rw [eclat, eclatFuelRun]
  exact eclatLoop_eq_fuel _ _ _ k _ _

/-! ### Counting sublists: utilities for the completeness argument -/

/-- All subsequences of a list (each position-subsequence once). -/
def subsOf {α : Type} : List α → List (List α)
  | [] => [[]]
  | a :: l => subsOf l ++ (subsOf l).map (fun u => a :: u)

theorem mem_subsOf {α : Type} : ∀ {l u : List α},
    u ∈ subsOf l ↔ List.Sublist u l := by
  intro l
  induction l with
  | nil =>
    intro u
    simp only [subsOf, List.mem_singleton]
    constructor
    · rintro rfl; exact List.Sublist.refl []
    · intro h; exact List.sublist_nil.mp h
  | cons a t ih =>
    intro u
    simp only [subsOf, List.mem_append, List.mem_map]
    constructor
    · rintro (h | ⟨v, hv, rfl⟩)
      · exact (ih.mp h).trans (List.sublist_cons_self a t)
      · exact List.cons_sublist_cons.mpr (ih.mp hv)
    · intro h
      cases h with
      | cons _ h' => exact Or.inl (ih.mpr h')
      | cons₂ _ h' => exact Or.inr ⟨_, ih.mpr h', rfl⟩

theorem subsOf_nodup {α : Type} : ∀ {l : List α}, l.Nodup → (subsOf l).Nodup := by
  intro l
  induction l with
  | nil => intro _; simp [subsOf]
  | cons a t ih =>
    intro h
    rw [List.nodup_cons] at h
    rw [subsOf]
    refine List.Nodup.append (ih h.2) ((ih h.2).map ?_) ?_
    · intro u v huv
      exact List.tail_eq_of_cons_eq huv
    · intro u hu hv
      obtain ⟨v, hv', rfl⟩ := List.mem_map.mp hv
      have : a ∈ t := (mem_subsOf.mp hu).subset (List.mem_cons_self a v)
      exact h.1 this

theorem countP_subsOf_cons {α : Type} (p : List α → Bool) (a : α) (l : List α) :
    (subsOf (a :: l)).countP p =
      (subsOf l).countP p + (subsOf l).countP (fun u => p (a :: u)) := by
  rw [subsOf, List.countP_append, List.countP_map]
  rfl

theorem countP_subsOf_nil_one {α : Type} : ∀ (l : List α),
    (subsOf l).countP (fun u => u.isEmpty) = 1 := by
  intro l
  induction l with
  | nil => rfl
  | cons a t ih =>
    rw [countP_subsOf_cons, ih]
    have : (subsOf t).countP (fun u => (a :: u).isEmpty) = 0 :=
      List.countP_eq_zero.mpr (fun u _ => by simp)
    rw [this]

/-- Predicate picking out one-element subsequences. -/
def singlePred {α : Type} (q : α → Bool) : List α → Bool
  | [b] => q b
  | _ => false

theorem singlePred_nil {α : Type} (q : α → Bool) : singlePred q [] = false := rfl

theorem singlePred_single {α : Type} (q : α → Bool) (b : α) :
    singlePred q [b] = q b := rfl

theorem singlePred_cons2 {α : Type} (q : α → Bool) (a b : α) (t : List α) :
    singlePred q (a :: b :: t) = false := rfl

theorem countP_subsOf_single {α : Type} (q : α → Bool) : ∀ (t : List α),
    (subsOf t).countP (singlePred q) = t.countP q := by
  intro t
  induction t with
  | nil => rfl
  | cons a t ih =>
    rw [countP_subsOf_cons, ih, List.countP_cons]
    congr 1
    have hsplit : (fun u => singlePred q (a :: u)) =
        fun u : List α => (u.isEmpty && q a) := by
      funext u
      cases u with
      | nil => simp [singlePred_single]
      | cons b v => simp [singlePred_cons2]
    rw [hsplit]
    cases hq : q a with
    | false =>
      simp only [hq, Bool.and_false]
      simp
    | true =>
      simp only [hq, Bool.and_true]
      rw [countP_subsOf_nil_one]
      simp

theorem countP_split {α : Type} (l : List α) (p q : α → Bool) :
    l.countP p = l.countP (fun x => p x && q x) +
      l.countP (fun x => p x && ! q x) := by
  induction l with
  | nil => rfl
  | cons a t ih =>
    rw [List.countP_cons, List.countP_cons, List.countP_cons, ih]
    cases hp : p a <;> cases hq : q a <;> simp [hp, hq] <;> omega

theorem countP_eq_one_of_unique {α : Type} {l : List α} {p : α → Bool} {u : α}
    (hl : l.Nodup) (hu : u ∈ l) (h : ∀ v ∈ l, (p v = true ↔ v = u)) :
    l.countP p = 1 := by
  induction l with
  | nil => cases hu
  | cons a t ih =>
    rw [List.nodup_cons] at hl
    rw [List.countP_cons]
    rcases List.mem_cons.mp hu with heq | hu'
    · have hpa : p a = true := by
        rw [← heq]
        exact (h u hu).mpr rfl
      have hzero : t.countP p = 0 := List.countP_eq_zero.mpr (fun v hv hpv => by
        have hveq := (h v (List.mem_cons_of_mem a hv)).mp hpv
        rw [hveq, heq] at hv
        exact hl.1 hv)
      rw [hpa, hzero]
      simp
    · have hpa : p a = false := by
        cases hp : p a with
        | false => rfl
        | true =>
          have := (h a (List.mem_cons_self a t)).mp hp
          subst this
          exact absurd hu' hl.1
      rw [hpa]
      simp only [Bool.false_eq_true, if_false, Nat.add_zero]
      exact ih hl.2 hu' (fun v hv => h v (List.mem_cons_of_mem a hv))

theorem countP_subsOf_filter {α : Type} (p : α → Bool) : ∀ (t : List α)
    (Q : List α → Bool),
    (∀ u, Q u = true → ∀ a ∈ u, p a = true) →
    (subsOf (t.filter p)).countP Q = (subsOf t).countP Q := by
  intro t
  induction t with
  | nil => intro Q _; rfl
  | cons a t ih =>
    intro Q hQ
    by_cases hpa : p a = true
    · rw [List.filter_cons_of_pos hpa, countP_subsOf_cons, countP_subsOf_cons]
      rw [ih Q hQ]
      rw [ih (fun u => Q (a :: u)) (fun u hu b hb =>
        hQ (a :: u) hu b (List.mem_cons_of_mem a hb))]
    · rw [List.filter_cons_of_neg (by simpa using hpa), countP_subsOf_cons]
      have : (subsOf t).countP (fun u => Q (a :: u)) = 0 :=
        List.countP_eq_zero.mpr (fun u _ hc =>
          hpa (hQ (a :: u) hc a (List.mem_cons_self a u)))
      rw [ih Q hQ, this]
      omega

/-! ### The generation count of an equivalence class

`genCount db mF o zs S` counts the subsequences `u` of the tails `zs`, of
length at least two, whose extension `o ++ u` is frequent and matches the
item set `S`: these are exactly the itemsets that processing the class
`(o, zs)` and all of its descendants will emit. -/

def genPred (db : Obs) (mF : ℤ) (o : List Item) (S : Finset Item)
    (u : List Item) : Bool :=
  decide (2 ≤ u.length) &&
    decide (mF ≤ ((coverSet db (o ++ u)).card : ℤ)) &&
    decide ((o ++ u).toFinset = S)

def genCount (db : Obs) (mF : ℤ) (o zs : List Item) (S : Finset Item) : Nat :=
  (subsOf zs).countP (genPred db mF o S)

/-- Does a record's itemset match `S` as a set? -/
def recMatch (S : Finset Item) (r : FreqRec) : Bool :=
  decide (r.itemset.toFinset = S)

theorem genCount_nil (db : Obs) (mF : ℤ) (o : List Item) (S : Finset Item) :
    genCount db mF o [] S = 0 := by
  simp [genCount, subsOf, genPred, List.countP_cons]

theorem classGen_decomp (db : Obs) (mF : ℤ) (total : Nat) (S : Finset Item) :
    ∀ (o zs : List Item),
      (classRecs db mF total o zs).countP (recMatch S) +
        ((classPushes db mF o zs).map (fun d => genCount db mF d.1 d.2 S)).sum =
      genCount db mF o zs S := by
  intro o zs
  induction zs with
  | nil => simp [classRecs, classPushes, genCount_nil]
  | cons z t ih =>
    rw [classRecs, classPushes]
    rw [List.countP_append, List.map_append, List.sum_append]
    -- the right-hand side, decomposed along the head tail `z`
    have hrhs : genCount db mF o (z :: t) S =
        genCount db mF o t S +
        ((subsOf t).countP
            (fun u => genPred db mF o S (z :: u) && decide (u.length = 1)) +
          (subsOf t).countP
            (fun u => genPred db mF o S (z :: u) && ! decide (u.length = 1))) := by
      rw [genCount, countP_subsOf_cons]
      rw [← countP_split (subsOf t) (fun u => genPred db mF o S (z :: u))
        (fun u => decide (u.length = 1))]
      rfl
    rw [hrhs]
    -- the emitted pair records match the one-extension subsequences
    have hpair : ((t.filter (passB db mF o z)).map
          (fun b => mkFreqRec db total (o ++ [z, b]))).countP (recMatch S) =
        (subsOf t).countP
          (fun u => genPred db mF o S (z :: u) && decide (u.length = 1)) := by
      rw [List.countP_map]
      have hcp : ((t.filter (passB db mF o z)).countP
            (recMatch S ∘ fun b => mkFreqRec db total (o ++ [z, b]))) =
          t.countP (fun b => passB db mF o z b &&
            decide ((o ++ [z, b]).toFinset = S)) := by
        rw [List.countP_filter]
        refine List.countP_congr ?_
        intro b _
        simp only [Function.comp_apply, recMatch, mkFreqRec,
          Bool.and_eq_true, decide_eq_true_eq]
        tauto
      rw [hcp]
      rw [← countP_subsOf_single
        (fun b => passB db mF o z b && decide ((o ++ [z, b]).toFinset = S)) t]
      refine (List.countP_congr ?_).symm
      intro u _
      cases u with
      | nil =>
        simp [genPred, singlePred_nil]
      | cons b v =>
        cases v with
        | nil =>
          rw [singlePred_single]
          simp only [genPred, passB, Bool.and_eq_true, decide_eq_true_eq]
          constructor
          · rintro ⟨⟨⟨h1, h2⟩, h3⟩, h4⟩
            exact ⟨h2, h3⟩
          · rintro ⟨h2, h3⟩
            exact ⟨⟨⟨by simp, h2⟩, h3⟩, by simp⟩
        | cons c w =>
          rw [singlePred_cons2]
          simp [genPred, List.length_cons]
    rw [hpair]
    -- the pushed class generates the longer-extension subsequences
    have hpush : ((if (t.filter (passB db mF o z)).isEmpty then []
          else [(o ++ [z], t.filter (passB db mF o z))]).map
            (fun d => genCount db mF d.1 d.2 S)).sum =
        (subsOf t).countP
          (fun u => genPred db mF o S (z :: u) && ! decide (u.length = 1)) := by
      have hpred : ∀ u : List Item,
          (genPred db mF o S (z :: u) && ! decide (u.length = 1)) =
          genPred db mF (o ++ [z]) S u := by
        intro u
        have hlist : (o ++ [z]) ++ u = o ++ z :: u := by simp
        rw [genPred, genPred, hlist]
        rw [Bool.eq_iff_iff]
        simp only [Bool.and_eq_true, decide_eq_true_eq, Bool.not_eq_true',
          decide_eq_false_iff_not, List.length_cons]
        constructor
        · rintro ⟨⟨⟨h1, h2⟩, h3⟩, h4⟩
          exact ⟨⟨by omega, h2⟩, h3⟩
        · rintro ⟨⟨h1, h2⟩, h3⟩
          exact ⟨⟨⟨by omega, h2⟩, h3⟩, by omega⟩
      have hfilter : (subsOf (t.filter (passB db mF o z))).countP
            (genPred db mF (o ++ [z]) S) =
          (subsOf t).countP (genPred db mF (o ++ [z]) S) := by
        refine countP_subsOf_filter (passB db mF o z) t _ ?_
        intro u hu b hb
        rw [genPred] at hu
        simp only [Bool.and_eq_true, decide_eq_true_eq] at hu
        rw [passB, decide_eq_true_eq]
        refine le_trans hu.1.2 ?_
        have hsub : coverSet db ((o ++ [z]) ++ u) ⊆ coverSet db (o ++ [z, b]) := by
          refine coverSet_anti ?_
          intro x hx
          rcases List.mem_append.mp hx with hx | hx
          · exact List.mem_append.mpr (Or.inl (List.mem_append.mpr (Or.inl hx)))
          · rcases List.mem_cons.mp hx with rfl | hx
            · exact List.mem_append.mpr (Or.inl (List.mem_append.mpr
                (Or.inr (List.mem_singleton.mpr rfl))))
            · rw [List.mem_singleton] at hx
              subst hx
              exact List.mem_append.mpr (Or.inr hb)
        exact_mod_cast Int.ofNat_le.mpr (Finset.card_le_card hsub)
      have hcongr : (subsOf t).countP
            (fun u => genPred db mF o S (z :: u) && ! decide (u.length = 1)) =
          (subsOf t).countP (genPred db mF (o ++ [z]) S) :=
        List.countP_congr (fun u _ => by rw [hpred u])
      rw [hcongr]
      by_cases hemp : (t.filter (passB db mF o z)).isEmpty
      · rw [if_pos hemp]
        have he : t.filter (passB db mF o z) = [] := by
          cases hft : t.filter (passB db mF o z) with
          | nil => rfl
          | cons x xs => rw [hft] at hemp; exact absurd hemp (by simp)
        rw [← hfilter, he]
        simp [genCount_nil, subsOf, genPred]
      · rw [if_neg hemp]
        show genCount db mF (o ++ [z]) (t.filter (passB db mF o z)) S + 0 = _
        rw [Nat.add_zero, genCount, hfilter]
    rw [hpush, ← ih]
    omega

/-- The class determined by a `(stem, tails)` pair. -/
def classOf (db : Obs) (d : List Item × List Item) : EqClass :=
  d.2.map (elemOf db d.1)

theorem eclatLoopNB_count {db : Obs} {s : ℚ} :
    ∀ (n : Nat) (datas : List (List Item × List Item)) (acc : List FreqRec),
      stackMeasure (datas.map (classOf db)) < n →
      (∀ d ∈ datas, List.Sublist (d.1 ++ d.2) (vertItems db s)) →
      ∃ out,
        eclatLoopNB (prunedVert db s) (minFreqOf db s) (totalTransactions db)
          (datas.map (classOf db)) acc = Except.ok out ∧
        ∀ S : Finset Item, out.countP (recMatch S) =
          acc.countP (recMatch S) +
          (datas.map (fun d => genCount db (minFreqOf db s) d.1 d.2 S)).sum := by
  intro n
  induction n with
  | zero => intro datas acc h _; exact absurd h (by omega)
  | succ n ih =>
    intro datas acc hm hsub
    cases datas with
    | nil =>
      rw [List.map_nil, eclatLoopNB]
      exact ⟨acc, rfl, fun S => by simp⟩
    | cons d ds =>
      rw [List.map_cons, eclatLoopNB]
      have hd := hsub d (List.mem_cons_self d ds)
      simp only [classOf]
      rw [processClass_spec d.1 d.2 hd]
      have hstack :
          (((classPushes db (minFreqOf db s) d.1 d.2).map
            (fun e => e.2.map (elemOf db e.1))).reverse
            ++ ds.map (classOf db)) =
          ((classPushes db (minFreqOf db s) d.1 d.2).reverse ++ ds).map
            (classOf db) := by
        rw [List.map_append, List.map_reverse]
        rfl
      have hlt : stackMeasure
          (((classPushes db (minFreqOf db s) d.1 d.2).reverse ++ ds).map
            (classOf db)) <
          stackMeasure (classOf db d :: ds.map (classOf db)) := by
        rw [← hstack]
        exact stackMeasure_step _ _ _
          (processClass_measure_lt _ _ _ (classOf db d) _ _
            (processClass_spec d.1 d.2 hd))
      have hsub' : ∀ e ∈ (classPushes db (minFreqOf db s) d.1 d.2).reverse ++ ds,
          List.Sublist (e.1 ++ e.2) (vertItems db s) := by
        intro e he
        rcases List.mem_append.mp he with he | he
        · exact classPushes_sublist d.1 d.2 hd e (List.mem_reverse.mp he)
        · exact hsub e (List.mem_cons_of_mem d he)
      have hmeas : stackMeasure
          (((classPushes db (minFreqOf db s) d.1 d.2).reverse ++ ds).map
            (classOf db)) < n := by
        rw [List.map_cons] at hm
        have : stackMeasure (classOf db d :: ds.map (classOf db)) < n + 1 := hm
        omega
      obtain ⟨out, hout, hcount⟩ := ih
        ((classPushes db (minFreqOf db s) d.1 d.2).reverse ++ ds)
        (acc ++ classRecs db (minFreqOf db s) (totalTransactions db) d.1 d.2)
        hmeas hsub'
      refine ⟨out, ?_, ?_⟩
      · show eclatLoopNB (prunedVert db s) (minFreqOf db s)
          (totalTransactions db)
          (((classPushes db (minFreqOf db s) d.1 d.2).map
            (fun e => e.2.map (elemOf db e.1))).reverse ++ ds.map (classOf db))
          (acc ++ classRecs db (minFreqOf db s) (totalTransactions db) d.1 d.2) =
          Except.ok out
        rw [hstack]
        exact hout
      · intro S
        rw [hcount S, List.countP_append]
        rw [List.map_append, List.sum_append, List.map_reverse, List.sum_reverse]
        have hdec := classGen_decomp db (minFreqOf db s) (totalTransactions db)
          S d.1 d.2
        simp only [List.map_cons, List.sum_cons]
        omega

/-! ### Support arithmetic and the completeness characterization -/

theorem coverSetF_singleton (db : Obs) (x : Item) :
    coverSetF db {x} = tidsOf db x := by
  ext t
  simp only [coverSetF, Finset.mem_filter, Finset.mem_singleton, forall_eq]
  exact ⟨fun h => h.2, fun h => ⟨tidsOf_subset_allTids db x h, h⟩⟩

theorem supportOf_zero_total {db : Obs} (h : totalTransactions db = 0)
    (S : Finset Item) : supportOf db S = 0 := by
  rw [supportOf, h]
  simp

theorem support_iff_minFreq {db : Obs} {s : ℚ} (S : Finset Item)
    (hN : 0 < totalTransactions db) :
    s ≤ supportOf db S ↔ minFreqOf db s ≤ ((coverSetF db S).card : ℤ) := by
  rw [supportOf, le_div_iff₀ (by exact_mod_cast hN), minFreqOf, Int.ceil_le]
  constructor
  · intro h
    exact_mod_cast h
  · intro h
    exact_mod_cast h

theorem minFreqOf_pos {db : Obs} {s : ℚ} (hs : 0 < s)
    (hN : 0 < totalTransactions db) : 1 ≤ minFreqOf db s := by
  rw [minFreqOf]
  have hpos : (0 : ℚ) < s * (totalTransactions db : ℚ) :=
    mul_pos hs (by exact_mod_cast hN)
  exact Int.ceil_pos.mpr hpos

theorem mem_vertItems_iff_support {db : Obs} {s : ℚ} (hs : 0 < s) (x : Item) :
    x ∈ vertItems db s ↔ s ≤ supportOf db {x} := by
  by_cases hN : totalTransactions db = 0
  · constructor
    · intro hx
      exact absurd (totalTransactions_pos_of_mem_items (mem_vertItems.mp hx).1)
        (by omega)
    · intro h
      rw [supportOf_zero_total hN] at h
      exact absurd h (not_le.mpr hs)
  · have hNpos : 0 < totalTransactions db := Nat.pos_of_ne_zero hN
    rw [support_iff_minFreq {x} hNpos, coverSetF_singleton, mem_vertItems]
    constructor
    · rintro ⟨-, h2⟩
      exact h2
    · intro h2
      refine ⟨?_, h2⟩
      have h1 : 1 ≤ minFreqOf db s := minFreqOf_pos hs hNpos
      have hcard : 0 < (tidsOf db x).card := by
        have : (1 : ℤ) ≤ ((tidsOf db x).card : ℤ) := le_trans h1 h2
        exact_mod_cast lt_of_lt_of_le zero_lt_one this
      obtain ⟨t, ht⟩ := Finset.card_pos.mp hcard
      rw [mem_tidsOf] at ht
      exact mem_itemsOf.mpr ⟨t, ht⟩

theorem vertItems_of_total_zero {db : Obs} {s : ℚ}
    (h : totalTransactions db = 0) : vertItems db s = [] := by
  rw [List.eq_nil_iff_forall_not_mem]
  intro x hx
  exact absurd (totalTransactions_pos_of_mem_items (mem_vertItems.mp hx).1)
    (by omega)

theorem sublist_eq_filter {α : Type} [DecidableEq α] :
    ∀ {v l : List α}, List.Sublist v l → l.Nodup →
      v = l.filter (fun x => decide (x ∈ v)) := by
  intro v l h
  induction h with
  | slnil => intro _; rfl
  | cons a h ih =>
    intro hl
    rw [List.nodup_cons] at hl
    rw [List.filter_cons_of_neg, ← ih hl.2]
    simp only [decide_eq_true_eq]
    intro hav
    exact hl.1 (h.subset hav)
  | cons₂ a h ih =>
    intro hl
    rw [List.nodup_cons] at hl
    rw [List.filter_cons_of_pos (by simp)]
    congr 1
    rw [List.filter_congr, ← ih hl.2]
    intro x hx
    simp only [List.mem_cons, decide_eq_true_eq, decide_eq_decide]
    constructor
    · rintro (rfl | hxy)
      · exact absurd hx hl.1
      · exact hxy
    · intro hxy
      exact Or.inr hxy

theorem genCount_root_single (db : Obs) (s : ℚ) (x : Item) :
    genCount db (minFreqOf db s) [] (vertItems db s) {x} = 0 := by
  refine List.countP_eq_zero.mpr ?_
  intro v hv hpred
  rw [genPred] at hpred
  simp only [Bool.and_eq_true, decide_eq_true_eq, List.nil_append] at hpred
  have hnodup : v.Nodup :=
    (vertItems_nodup db s).sublist (mem_subsOf.mp hv)
  have hlen : v.toFinset.card = v.length := List.toFinset_card_of_nodup hnodup
  rw [hpred.2] at hlen
  simp only [Finset.card_singleton] at hlen
  omega

theorem genCount_root (db : Obs) (s : ℚ) (hs : 0 < s) (S : Finset Item)
    (hS2 : 2 ≤ S.card) :
    genCount db (minFreqOf db s) [] (vertItems db s) S =
      if s ≤ supportOf db S then 1 else 0 := by
  by_cases hfreq : s ≤ supportOf db S
  · rw [if_pos hfreq]
    have hN : 0 < totalTransactions db := by
      rcases Nat.eq_zero_or_pos (totalTransactions db) with h0 | hpos
      · rw [supportOf_zero_total h0] at hfreq
        exact absurd hfreq (not_le.mpr hs)
      · exact hpos
    have hcard : minFreqOf db s ≤ ((coverSetF db S).card : ℤ) :=
      (support_iff_minFreq S hN).mp hfreq
    have hSsub : ∀ x ∈ S, x ∈ vertItems db s := by
      intro x hx
      have hsubx : coverSetF db S ⊆ tidsOf db x := by
        intro t ht
        simp only [coverSetF, Finset.mem_filter] at ht
        exact ht.2 x hx
      have hcardx : (coverSetF db S).card ≤ (tidsOf db x).card :=
        Finset.card_le_card hsubx
      rw [mem_vertItems]
      constructor
      · have h1 : 1 ≤ minFreqOf db s := minFreqOf_pos hs hN
        have hpos : 0 < (coverSetF db S).card := by
          have : (1 : ℤ) ≤ ((coverSetF db S).card : ℤ) := le_trans h1 hcard
          exact_mod_cast lt_of_lt_of_le zero_lt_one this
        obtain ⟨t, ht⟩ := Finset.card_pos.mp hpos
        have := hsubx ht
        rw [mem_tidsOf] at this
        exact mem_itemsOf.mpr ⟨t, this⟩
      · exact le_trans hcard (by exact_mod_cast hcardx)
    have hufin : ((vertItems db s).filter (fun x => decide (x ∈ S))).toFinset
        = S := by
      ext x
      simp only [List.mem_toFinset, List.mem_filter, decide_eq_true_eq]
      exact ⟨fun h => h.2, fun h => ⟨hSsub x h, h⟩⟩
    have hunodup : ((vertItems db s).filter (fun x => decide (x ∈ S))).Nodup :=
      (vertItems_nodup db s).sublist (List.filter_sublist _)
    have hulen : 2 ≤ ((vertItems db s).filter (fun x => decide (x ∈ S))).length := by
      have := List.toFinset_card_of_nodup hunodup
      rw [hufin] at this
      omega
    have hucover : coverSet db ((vertItems db s).filter (fun x => decide (x ∈ S)))
        = coverSetF db S := by
      rw [coverSet_eq_coverSetF, hufin]
    have hupred : genPred db (minFreqOf db s) [] S
        ((vertItems db s).filter (fun x => decide (x ∈ S))) = true := by
      rw [genPred]
      simp only [Bool.and_eq_true, decide_eq_true_eq, List.nil_append]
      exact ⟨⟨hulen, by rw [hucover]; exact hcard⟩, hufin⟩
    refine @countP_eq_one_of_unique (List Item) (subsOf (vertItems db s))
      (genPred db (minFreqOf db s) [] S)
      ((vertItems db s).filter (fun x => decide (x ∈ S)))
      (subsOf_nodup (vertItems_nodup db s))
      (mem_subsOf.mpr (List.filter_sublist _)) ?_
    intro v hv
    constructor
    · intro hpred
      rw [genPred] at hpred
      simp only [Bool.and_eq_true, decide_eq_true_eq, List.nil_append] at hpred
      have hvsub : List.Sublist v (vertItems db s) := mem_subsOf.mp hv
      have hveq : v = (vertItems db s).filter (fun x => decide (x ∈ v)) :=
        sublist_eq_filter hvsub (vertItems_nodup db s)
      rw [hveq]
      refine List.filter_congr ?_
      intro x _
      simp only [decide_eq_decide]
      constructor
      · intro hxv
        rw [← hpred.2]
        exact List.mem_toFinset.mpr hxv
      · intro hxS
        rw [← hpred.2] at hxS
        exact List.mem_toFinset.mp hxS
    · intro hveq
      rw [hveq]
      exact hupred
  · rw [if_neg hfreq]
    refine List.countP_eq_zero.mpr ?_
    intro v hv hpred
    rw [genPred] at hpred
    simp only [Bool.and_eq_true, decide_eq_true_eq, List.nil_append] at hpred
    rcases Nat.eq_zero_or_pos (totalTransactions db) with h0 | hN
    · have : vertItems db s = [] := vertItems_of_total_zero h0
      rw [this] at hv
      have hvnil : v = [] := List.sublist_nil.mp (mem_subsOf.mp hv)
      rw [hvnil] at hpred
      simp at hpred
    · have hcov : coverSet db v = coverSetF db S := by
        rw [coverSet_eq_coverSetF, hpred.2]
      have hmf : minFreqOf db s ≤ ((coverSetF db S).card : ℤ) := by
        rw [← hcov]
        exact hpred.1.2
      exact hfreq ((support_iff_minFreq S hN).mpr hmf)

theorem singletonRecs_count_single (db : Obs) (s : ℚ) (x : Item) :
    (singletonRecs db s).countP (recMatch {x}) =
      if x ∈ vertItems db s then 1 else 0 := by
  rw [singletonRecs, List.countP_map]
  have hcongr : (prunedVert db s).countP
      (recMatch {x} ∘ fun p : Item × TSet =>
        (⟨[p.1], p.2.card, (p.2.card : ℚ) / (totalTransactions db : ℚ)⟩ : FreqRec)) =
      (prunedVert db s).countP (fun p => decide (p.1 = x)) := by
    refine List.countP_congr ?_
    intro p _
    simp [recMatch]
  rw [hcongr]
  have hmapc : (prunedVert db s).countP (fun p => decide (p.1 = x)) =
      (vertItems db s).countP (fun a => decide (a = x)) := by
    rw [vertItems, List.countP_map]
    rfl
  rw [hmapc]
  by_cases hx : x ∈ vertItems db s
  · rw [if_pos hx]
    exact countP_eq_one_of_unique (vertItems_nodup db s) hx (fun v _ => by simp)
  · rw [if_neg hx]
    refine List.countP_eq_zero.mpr ?_
    intro v hv hp
    rw [decide_eq_true_eq] at hp
    subst hp
    exact hx hv

theorem singletonRecs_count_big (db : Obs) (s : ℚ) (S : Finset Item)
    (h2 : 2 ≤ S.card) :
    (singletonRecs db s).countP (recMatch S) = 0 := by
  refine List.countP_eq_zero.mpr ?_
  intro r hr hp
  rw [singletonRecs, List.mem_map] at hr
  obtain ⟨p, hp', rfl⟩ := hr
  rw [recMatch, decide_eq_true_eq] at hp
  have : S.card = 1 := by
    rw [← hp]
    simp
  omega

/-- With an unbounded budget, the table contains exactly one record (as a
set of items) for every frequent itemset and none for any other set. -/
theorem eclat_complete (db : Obs) (s : ℚ) (hs : 0 < s) :
    ∃ recs, eclat db s none = Except.ok recs ∧
      ∀ S : Finset Item, S.Nonempty →
        recs.countP (recMatch S) = if s ≤ supportOf db S then 1 else 0 := by
  obtain ⟨out, hout, hcount⟩ := @eclatLoopNB_count db s
    (stackMeasure ([([], vertItems db s)].map (classOf db)) + 1)
    [([], vertItems db s)] (singletonRecs db s) (by omega)
    (by
      intro d hd
      rw [List.mem_singleton] at hd
      subst hd
      simp)
  have hseedeq : [seedClass db s] = [([], vertItems db s)].map (classOf db) := by
    rw [List.map_cons, List.map_nil]
    congr 1
    exact (classInv_seed db s).1
  refine ⟨out, ?_, ?_⟩
  · rw [eclat_none_eq_NB, eclatRunNB, hseedeq]
    exact hout
  · intro S hSne
    rw [hcount S]
    have hsum : ([([], vertItems db s)].map
        (fun d => genCount db (minFreqOf db s) d.1 d.2 S)).sum =
        genCount db (minFreqOf db s) [] (vertItems db s) S := by
      simp
    rw [hsum]
    have hc1 : 1 ≤ S.card := Finset.card_pos.mpr hSne
    rcases (by omega : S.card = 1 ∨ 2 ≤ S.card) with h1 | h2
    · obtain ⟨x, rfl⟩ := Finset.card_eq_one.mp h1
      rw [singletonRecs_count_single, genCount_root_single, Nat.add_zero]
      by_cases hx : x ∈ vertItems db s
      · rw [if_pos hx, if_pos ((mem_vertItems_iff_support hs x).mp hx)]
      · rw [if_neg hx, if_neg (fun h => hx ((mem_vertItems_iff_support hs x).mpr h))]
    · rw [singletonRecs_count_big db s S h2, genCount_root db s hs S h2]
      omega

/-! ### The rule deriver: lookups and rule construction -/

theorem counterEq_iff_perm {l1 l2 : List Item} :
    counterEq l1 l2 = true ↔ List.Perm l1 l2 := by
  rw [counterEq, decide_eq_true_eq]
  exact Multiset.coe_eq_coe

theorem counterEq_target_perm (l : List Item) {t1 t2 : List Item}
    (h : List.Perm t1 t2) : counterEq l t1 = counterEq l t2 := by
  rw [counterEq, counterEq, decide_eq_decide]
  constructor
  · intro he
    exact he.trans (Multiset.coe_eq_coe.mpr h)
  · intro he
    exact he.trans (Multiset.coe_eq_coe.mpr h.symm)

theorem lookupFreqRow_target_perm (t : List FreqRec) {t1 t2 : List Item}
    (h : List.Perm t1 t2) : lookupFreqRow t t1 = lookupFreqRow t t2 := by
  rw [lookupFreqRow, lookupFreqRow]
  congr 1
  funext r
  exact counterEq_target_perm r.itemset h

theorem lookupFreqRow_isSome_of_perm {t : List FreqRec} {target : List Item}
    {r : FreqRec} (hr : r ∈ t) (hp : List.Perm r.itemset target) :
    (lookupFreqRow t target).isSome = true := by
  rw [lookupFreqRow]
  cases hf : t.find? (fun q => counterEq q.itemset target) with
  | some q => rfl
  | none =>
    exfalso
    have hnone := List.find?_eq_none.mp hf r hr
    exact hnone (counterEq_iff_perm.mpr hp)

theorem lookupFreqRow_some_spec {t : List FreqRec} {target : List Item}
    {r : FreqRec} (h : lookupFreqRow t target = some r) :
    r ∈ t ∧ List.Perm r.itemset target := by
  refine ⟨List.mem_of_find?_eq_some h, ?_⟩
  have := List.find?_some h
  exact counterEq_iff_perm.mp this

/-- Frequency of the first table row matching `u` (0 when absent;
used only under the presence precondition). -/
def freqOfRow (t : List FreqRec) (u : List Item) : ℚ :=
  match lookupFreqRow t u with
  | some r => (r.freq : ℚ)
  | none => 0

/-- Support of the first table row matching `u` (0 when absent). -/
def suppOfRow (t : List FreqRec) (u : List Item) : ℚ :=
  match lookupFreqRow t u with
  | some r => r.supp
  | none => 0

/-- The rule record that `assoc_rules` computes for one split. -/
def expectedRule (t : List FreqRec) (rule : List Item × List Item) : RuleRec :=
  ⟨rule, suppOfRow t (rule.1 ++ rule.2),
   freqOfRow t (rule.1 ++ rule.2) / freqOfRow t rule.1,
   (freqOfRow t (rule.1 ++ rule.2) / freqOfRow t rule.1) / suppOfRow t rule.2⟩

theorem freqOfRow_perm (t : List FreqRec) {t1 t2 : List Item}
    (h : List.Perm t1 t2) : freqOfRow t t1 = freqOfRow t t2 := by
  rw [freqOfRow, freqOfRow, lookupFreqRow_target_perm t h]

theorem suppOfRow_perm (t : List FreqRec) {t1 t2 : List Item}
    (h : List.Perm t1 t2) : suppOfRow t t1 = suppOfRow t t2 := by
  rw [suppOfRow, suppOfRow, lookupFreqRow_target_perm t h]

theorem mkRule_ok {t : List FreqRec} {rule : List Item × List Item}
    (h1 : (lookupFreqRow t (rule.1 ++ rule.2)).isSome = true)
    (h2 : (lookupFreqRow t rule.1).isSome = true)
    (h3 : (lookupFreqRow t rule.2).isSome = true) :
    mkRule t rule = Except.ok (expectedRule t rule) := by
  rw [mkRule]
  cases hf : lookupFreqRow t (rule.1 ++ rule.2) with
  | none => rw [hf] at h1; exact absurd h1 (by simp)
  | some rowFull =>
    cases ha : lookupFreqRow t rule.1 with
    | none => rw [ha] at h2; exact absurd h2 (by simp)
    | some rowAnt =>
      cases hc : lookupFreqRow t rule.2 with
      | none => rw [hc] at h3; exact absurd h3 (by simp)
      | some rowCons =>
        rw [expectedRule, freqOfRow, freqOfRow, suppOfRow, suppOfRow, hf, ha, hc]

theorem mkRule_error_spec {t : List FreqRec} {rule : List Item × List Item}
    {m : List Item} (h : mkRule t rule = Except.error m) :
    lookupFreqRow t m = none ∧
      (m = rule.1 ++ rule.2 ∨ m = rule.1 ∨ m = rule.2) := by
  rw [mkRule] at h
  cases hf : lookupFreqRow t (rule.1 ++ rule.2) with
  | none =>
    rw [hf] at h
    cases h
    exact ⟨hf, Or.inl rfl⟩
  | some rowFull =>
    rw [hf] at h
    cases ha : lookupFreqRow t rule.1 with
    | none =>
      rw [ha] at h
      cases h
      exact ⟨ha, Or.inr (Or.inl rfl)⟩
    | some rowAnt =>
      rw [ha] at h
      cases hc : lookupFreqRow t rule.2 with
      | none =>
        rw [hc] at h
        cases h
        exact ⟨hc, Or.inr (Or.inr rfl)⟩
      | some rowCons =>
        rw [hc] at h
        cases h

theorem mkRule_ok_lookups {t : List FreqRec} {rule : List Item × List Item}
    {rr : RuleRec} (h : mkRule t rule = Except.ok rr) :
    (lookupFreqRow t (rule.1 ++ rule.2)).isSome = true ∧
      (lookupFreqRow t rule.1).isSome = true ∧
      (lookupFreqRow t rule.2).isSome = true := by
  rw [mkRule] at h
  cases hf : lookupFreqRow t (rule.1 ++ rule.2) with
  | none => rw [hf] at h; cases h
  | some rowFull =>
    rw [hf] at h
    cases ha : lookupFreqRow t rule.1 with
    | none => rw [ha] at h; cases h
    | some rowAnt =>
      rw [ha] at h
      cases hc : lookupFreqRow t rule.2 with
      | none => rw [hc] at h; cases h
      | some rowCons => exact ⟨by simp [hf], by simp [ha], by simp [hc]⟩

theorem mkRules_ok {t : List FreqRec} : ∀ (rules : List (List Item × List Item)),
    (∀ r ∈ rules, mkRule t r = Except.ok (expectedRule t r)) →
    mkRules t rules = Except.ok (rules.map (expectedRule t)) := by
  intro rules
  induction rules with
  | nil => intro _; rfl
  | cons r rs ih =>
    intro h
    rw [mkRules, h r (List.mem_cons_self r rs),
      ih (fun q hq => h q (List.mem_cons_of_mem r hq))]
    rfl

theorem mkRules_error {t : List FreqRec} : ∀ (rules : List (List Item × List Item)),
    (∃ r ∈ rules, ¬((lookupFreqRow t (r.1 ++ r.2)).isSome = true ∧
      (lookupFreqRow t r.1).isSome = true ∧
      (lookupFreqRow t r.2).isSome = true)) →
    ∃ m, mkRules t rules = Except.error m ∧ lookupFreqRow t m = none ∧
      ∃ r ∈ rules, m = r.1 ++ r.2 ∨ m = r.1 ∨ m = r.2 := by
  intro rules
  induction rules with
  | nil => rintro ⟨r, hr, -⟩; cases hr
  | cons r0 rs ih =>
    rintro ⟨r, hr, hmiss⟩
    cases hmk : mkRule t r0 with
    | error m =>
      obtain ⟨hm1, hm2⟩ := mkRule_error_spec hmk
      refine ⟨m, ?_, hm1, ⟨r0, List.mem_cons_self r0 rs, hm2⟩⟩
      rw [mkRules, hmk]
    | ok rr =>
      have hr0 := mkRule_ok_lookups hmk
      have hrs : r ∈ rs := by
        rcases List.mem_cons.mp hr with rfl | h
        · exact absurd hr0 hmiss
        · exact h
      obtain ⟨m, hm1, hm2, q, hq, hq2⟩ := ih ⟨r, hrs, hmiss⟩
      refine ⟨m, ?_, hm2, ⟨q, List.mem_cons_of_mem r0 hq, hq2⟩⟩
      rw [mkRules, hmk, hm1]

theorem powersetPy_nil_of_short {s' : List Item} (h : s'.length ≤ 1) :
    powersetPy s' = [] := by
  rw [powersetPy]
  have h0 : s'.length - 1 = 0 := by omega
  rw [h0]
  rfl

theorem splitsOf_nil_of_short {s' : List Item} (h : s'.length ≤ 1) :
    splitsOf s' = [] := by
  rw [splitsOf, powersetPy_nil_of_short h]
  rfl

/-! ### `combinations` and `powerset`: enumeration of the splits -/

theorem mem_combinationsL {α : Type} : ∀ (l : List α) (r : Nat) (u : List α),
    u ∈ combinationsL r l ↔ (List.Sublist u l ∧ u.length = r) := by
  intro l
  induction l with
  | nil =>
    intro r u
    cases r with
    | zero =>
      simp only [combinationsL, List.mem_singleton]
      constructor
      · rintro rfl
        exact ⟨List.Sublist.refl _, rfl⟩
      · rintro ⟨h, -⟩
        exact List.sublist_nil.mp h
    | succ r =>
      simp only [combinationsL, List.not_mem_nil, false_iff, not_and]
      intro h
      have hnil : u = [] := List.sublist_nil.mp h
      subst hnil
      simp
  | cons x xs ih =>
    intro r u
    cases r with
    | zero =>
      simp only [combinationsL, List.mem_singleton]
      constructor
      · rintro rfl
        exact ⟨List.nil_sublist _, rfl⟩
      · rintro ⟨-, hl⟩
        exact List.length_eq_zero.mp hl
    | succ r =>
      simp only [combinationsL, List.mem_append, List.mem_map]
      constructor
      · rintro (⟨v, hv, rfl⟩ | h)
        · obtain ⟨hs, hl⟩ := (ih r v).mp hv
          exact ⟨List.cons_sublist_cons.mpr hs, by simp [hl]⟩
        · obtain ⟨hs, hl⟩ := (ih (r + 1) u).mp h
          exact ⟨hs.trans (List.sublist_cons_self x xs), hl⟩
      · rintro ⟨hs, hl⟩
        cases hs with
        | cons _ h' => exact Or.inr ((ih (r + 1) u).mpr ⟨h', hl⟩)
        | cons₂ _ h' =>
          exact Or.inl ⟨_, (ih r _).mpr ⟨h', by simpa using hl⟩, rfl⟩

theorem combinationsL_nodup {α : Type} : ∀ (l : List α), l.Nodup → ∀ (r : Nat),
    (combinationsL r l).Nodup := by
  intro l
  induction l with
  | nil =>
    intro _ r
    cases r <;> simp [combinationsL]
  | cons x xs ih =>
    intro h r
    rw [List.nodup_cons] at h
    cases r with
    | zero => simp [combinationsL]
    | succ r =>
      rw [combinationsL]
      refine List.Nodup.append
        ((ih h.2 r).map (fun u v huv => List.tail_eq_of_cons_eq huv))
        (ih h.2 (r + 1)) ?_
      intro u hu1 hu2
      obtain ⟨v, hv, rfl⟩ := List.mem_map.mp hu1
      have hsub := ((mem_combinationsL xs (r + 1) (x :: v)).mp hu2).1
      exact h.1 (hsub.subset (List.mem_cons_self x v))

theorem countP_flatMap {α β : Type} (l : List α) (f : α → List β) (p : β → Bool) :
    (l.flatMap f).countP p = (l.map (fun a => (f a).countP p)).sum := by
  induction l with
  | nil => rfl
  | cons a t ih =>
    rw [List.flatMap_cons, List.countP_append, ih, List.map_cons, List.sum_cons]

theorem sublists_eq_of_toFinset {l v w : List Item} (hn : l.Nodup)
    (hv : List.Sublist v l) (hw : List.Sublist w l)
    (h : v.toFinset = w.toFinset) : v = w := by
  rw [sublist_eq_filter hv hn, sublist_eq_filter hw hn]
  refine List.filter_congr ?_
  intro x _
  simp only [decide_eq_decide]
  rw [← List.mem_toFinset, h, List.mem_toFinset]

theorem mem_powersetPy {α : Type} {l u : List α} :
    u ∈ powersetPy l ↔
      List.Sublist u l ∧ 1 ≤ u.length ∧ u.length ≤ l.length - 1 := by
  rw [powersetPy, List.mem_flatMap]
  constructor
  · rintro ⟨r, hr, hu⟩
    rw [List.mem_range'_1] at hr
    obtain ⟨hs, hl⟩ := (mem_combinationsL l r u).mp hu
    exact ⟨hs, by omega, by omega⟩
  · rintro ⟨hs, h1, h2⟩
    exact ⟨u.length, List.mem_range'_1.mpr ⟨h1, by omega⟩,
      (mem_combinationsL l u.length u).mpr ⟨hs, rfl⟩⟩

theorem countP_combosL {l : List Item} (hn : l.Nodup) (A : Finset Item)
    (hA : A ⊆ l.toFinset) (r : Nat) :
    (combinationsL r l).countP (fun u => decide (u.toFinset = A)) =
      if r = A.card then 1 else 0 := by
  have hufin : (l.filter (fun x => decide (x ∈ A))).toFinset = A := by
    ext x
    simp only [List.mem_toFinset, List.mem_filter, decide_eq_true_eq]
    exact ⟨fun h => h.2, fun h => ⟨List.mem_toFinset.mp (hA h), h⟩⟩
  have hunodup : (l.filter (fun x => decide (x ∈ A))).Nodup :=
    hn.sublist (List.filter_sublist l)
  have hulen : (l.filter (fun x => decide (x ∈ A))).length = A.card := by
    conv_rhs => rw [← hufin]
    exact (List.toFinset_card_of_nodup hunodup).symm
  by_cases hr : r = A.card
  · rw [if_pos hr]
    subst hr
    refine @countP_eq_one_of_unique (List Item) (combinationsL A.card l)
      (fun u => decide (u.toFinset = A)) (l.filter (fun x => decide (x ∈ A)))
      (combinationsL_nodup l hn A.card)
      ((mem_combinationsL l A.card _).mpr ⟨List.filter_sublist l, hulen⟩) ?_
    intro v hv
    rw [decide_eq_true_eq]
    obtain ⟨hvsub, hvlen⟩ := (mem_combinationsL l A.card v).mp hv
    constructor
    · intro hfin
      exact sublists_eq_of_toFinset hn hvsub (List.filter_sublist l)
        (by rw [hfin, hufin])
    · rintro rfl
      exact hufin
  · rw [if_neg hr]
    refine List.countP_eq_zero.mpr ?_
    intro v hv hp
    rw [decide_eq_true_eq] at hp
    obtain ⟨hvsub, hvlen⟩ := (mem_combinationsL l r v).mp hv
    have : v.toFinset.card = v.length := List.toFinset_card_of_nodup
      (hn.sublist hvsub)
    rw [hp, hvlen] at this
    exact hr this.symm

theorem sum_map_ite_one : ∀ {l : List Nat}, l.Nodup → ∀ {a : Nat}, a ∈ l →
    (l.map (fun r => if r = a then 1 else 0)).sum = 1 := by
  intro l
  induction l with
  | nil => intro _ a ha; cases ha
  | cons b t ih =>
    intro hl a ha
    rw [List.nodup_cons] at hl
    rw [List.map_cons, List.sum_cons]
    rcases List.mem_cons.mp ha with heq | ha'
    · subst heq
      rw [if_pos rfl]
      have hz : (t.map (fun r => if r = a then 1 else 0)).sum = 0 := by
        rw [List.sum_eq_zero]
        intro x hx
        obtain ⟨r, hr, rfl⟩ := List.mem_map.mp hx
        rw [if_neg]
        intro hrb
        subst hrb
        exact hl.1 hr
      rw [hz]
    · rw [if_neg, ih hl.2 ha']
      intro hba
      subst hba
      exact hl.1 ha'

theorem countP_powersetPy {l : List Item} (hn : l.Nodup) (A : Finset Item)
    (hA1 : A.Nonempty) (hA2 : A ⊂ l.toFinset) :
    (powersetPy l).countP (fun u => decide (u.toFinset = A)) = 1 := by
  rw [powersetPy, countP_flatMap]
  have hcongr : (List.range' 1 (l.length - 1)).map
      (fun r => (combinationsL r l).countP (fun u => decide (u.toFinset = A))) =
      (List.range' 1 (l.length - 1)).map (fun r => if r = A.card then 1 else 0) :=
    List.map_congr_left (fun r _ => countP_combosL hn A hA2.subset r)
  rw [hcongr]
  refine sum_map_ite_one (List.nodup_range' _ _) ?_
  rw [List.mem_range'_1]
  have h1 : 1 ≤ A.card := Finset.card_pos.mpr hA1
  have h2 : A.card < l.toFinset.card := Finset.card_lt_card hA2
  have h3 : l.toFinset.card ≤ l.length := List.toFinset_card_le l
  omega

theorem split_union {s' a : List Item} (ha : List.Sublist a s') :
    (a ++ s'.filter (fun x => ¬ x ∈ a)).toFinset = s'.toFinset := by
  ext x
  simp only [List.toFinset_append, Finset.mem_union, List.mem_toFinset,
    List.mem_filter, decide_eq_true_eq]
  constructor
  · rintro (h | ⟨h, -⟩)
    · exact ha.subset h
    · exact h
  · intro h
    by_cases hxa : x ∈ a
    · exact Or.inl hxa
    · exact Or.inr ⟨h, by simpa using hxa⟩

theorem split_perm {s' : List Item} (hn : s'.Nodup) {a : List Item}
    (ha : List.Sublist a s') :
    List.Perm (a ++ s'.filter (fun x => ¬ x ∈ a)) s' := by
  have h1 : a = s'.filter (fun x => decide (x ∈ a)) := sublist_eq_filter ha hn
  have h2 := s'.filter_append_perm (fun x => decide (x ∈ a))
  have hfeq : (fun x : Item => ! decide (x ∈ a)) =
      (fun x : Item => decide (¬ x ∈ a)) := by
    funext x
    simp [decide_not]
  rw [hfeq] at h2
  have h3 : a ++ s'.filter (fun x => ¬ x ∈ a) =
      s'.filter (fun x => decide (x ∈ a)) ++ s'.filter (fun x => ¬ x ∈ a) := by
    rw [← h1]
  rw [h3]
  exact h2

theorem consequent_ne_nil {s' a : List Item} (hn : s'.Nodup)
    (ha : a ∈ powersetPy s') :
    s'.filter (fun x => ¬ x ∈ a) ≠ [] := by
  obtain ⟨hsub, h1, h2⟩ := mem_powersetPy.mp ha
  intro h0
  rw [List.filter_eq_nil_iff] at h0
  have hall : ∀ x ∈ s', x ∈ a := by
    intro x hx
    have := h0 x hx
    simpa using this
  have heq : a = s' := by
    rw [sublist_eq_filter hsub hn]
    exact List.filter_eq_self.mpr (fun x hx => by
      simpa using hall x hx)
  rw [heq] at h1 h2
  omega

theorem splitsOf_rule_shape {s' : List Item} {ac : List Item × List Item}
    (h : ac ∈ splitsOf s') :
    ac.1 ∈ powersetPy s' ∧ ac.2 = s'.filter (fun x => ¬ x ∈ ac.1) := by
  rw [splitsOf, List.mem_map] at h
  obtain ⟨a, ha, rfl⟩ := h
  exact ⟨ha, rfl⟩

theorem splitsOf_countP_eq (s'' : List Item) (A sS : Finset Item) :
    (splitsOf s'').countP (fun ac => decide (ac.1.toFinset = A) &&
      decide ((ac.1 ++ ac.2).toFinset = sS)) =
    if s''.toFinset = sS then
      (powersetPy s'').countP (fun a => decide (a.toFinset = A))
    else 0 := by
  rw [splitsOf, List.countP_map]
  by_cases h : s''.toFinset = sS
  · rw [if_pos h]
    refine List.countP_congr ?_
    intro a ha
    simp only [Function.comp_apply, Bool.and_eq_true, decide_eq_true_eq]
    have hu := split_union (mem_powersetPy.mp ha).1
    constructor
    · rintro ⟨h1, -⟩
      exact h1
    · intro h1
      exact ⟨h1, by rw [hu, h]⟩
  · rw [if_neg h]
    refine List.countP_eq_zero.mpr ?_
    intro a ha hp
    simp only [Function.comp_apply, Bool.and_eq_true, decide_eq_true_eq] at hp
    have hu := split_union (mem_powersetPy.mp ha).1
    exact h (by rw [← hu]; exact hp.2)

theorem countP_flatMap_splits {A sS : Finset Item} :
    ∀ (itemsets : List (List Item)),
      itemsets.Pairwise (fun s1 s2 => s1.toFinset ≠ s2.toFinset) →
      ∀ s' ∈ itemsets, s'.toFinset = sS → s'.Nodup → A.Nonempty → A ⊂ sS →
      (itemsets.flatMap splitsOf).countP
        (fun ac => decide (ac.1.toFinset = A) &&
          decide ((ac.1 ++ ac.2).toFinset = sS)) = 1 := by
  intro itemsets
  induction itemsets with
  | nil =>
    intro _ s' hs'
    cases hs'
  | cons s0 rest ih =>
    intro hdist s' hs' hfin hnod hA1 hA2
    rw [List.flatMap_cons, List.countP_append]
    rw [List.pairwise_cons] at hdist
    by_cases h0 : s0.toFinset = sS
    · have hs0 : s' = s0 := by
        rcases List.mem_cons.mp hs' with h | h
        · exact h
        · exact absurd (h0.trans hfin.symm) (hdist.1 s' h)
      subst hs0
      have hhead : (splitsOf s').countP
          (fun ac => decide (ac.1.toFinset = A) &&
            decide ((ac.1 ++ ac.2).toFinset = sS)) = 1 := by
        rw [splitsOf_countP_eq, if_pos hfin]
        exact countP_powersetPy hnod A hA1 (by rw [hfin]; exact hA2)
      have htail : (rest.flatMap splitsOf).countP
          (fun ac => decide (ac.1.toFinset = A) &&
            decide ((ac.1 ++ ac.2).toFinset = sS)) = 0 := by
        refine List.countP_eq_zero.mpr ?_
        intro ac hac hp
        rw [List.mem_flatMap] at hac
        obtain ⟨s'', hs'', hacs⟩ := hac
        simp only [Bool.and_eq_true, decide_eq_true_eq] at hp
        have hu := split_union (mem_powersetPy.mp (splitsOf_rule_shape hacs).1).1
        rw [(splitsOf_rule_shape hacs).2] at hp
        have : s''.toFinset = sS := by rw [← hu]; exact hp.2
        exact hdist.1 s'' hs'' (h0.trans this.symm)
      rw [hhead, htail]
    · have hsrest : s' ∈ rest := by
        rcases List.mem_cons.mp hs' with h | h
        · exact absurd (h ▸ hfin) h0
        · exact h
      have hhead : (splitsOf s0).countP
          (fun ac => decide (ac.1.toFinset = A) &&
            decide ((ac.1 ++ ac.2).toFinset = sS)) = 0 := by
        rw [splitsOf_countP_eq, if_neg h0]
      rw [hhead, ih hdist.2 s' hsrest hfin hnod hA1 hA2]

theorem assoc_rules_ok {itemsets : List (List Item)} {t : List FreqRec}
    (hnodup : ∀ s' ∈ itemsets, s'.Nodup)
    (hpresent : ∀ s' ∈ itemsets, ∀ u ∈ s'.sublists, u ≠ [] →
      (lookupFreqRow t u).isSome = true) :
    assoc_rules itemsets t =
      Except.ok ((itemsets.flatMap splitsOf).map (expectedRule t)) := by
  rw [assoc_rules]
  refine mkRules_ok _ ?_
  intro r hr
  rw [List.mem_flatMap] at hr
  obtain ⟨s', hs', hrs⟩ := hr
  obtain ⟨ha, hc⟩ := splitsOf_rule_shape hrs
  obtain ⟨hasub, ha1, ha2⟩ := mem_powersetPy.mp ha
  have hs'nodup := hnodup s' hs'
  have hs'len : 2 ≤ s'.length := by omega
  have hs'ne : s' ≠ [] := by
    intro h
    rw [h] at hs'len
    simp at hs'len
  refine mkRule_ok ?_ ?_ ?_
  · have hperm : List.Perm (r.1 ++ r.2) s' := by
      rw [hc]
      exact split_perm hs'nodup hasub
    rw [lookupFreqRow_target_perm t hperm]
    exact hpresent s' hs' s' (List.mem_sublists.mpr (List.Sublist.refl s')) hs'ne
  · refine hpresent s' hs' r.1 (List.mem_sublists.mpr hasub) ?_
    intro h
    rw [h] at ha1
    simp at ha1
  · rw [hc]
    exact hpresent s' hs' _ (List.mem_sublists.mpr (List.filter_sublist s'))
      (consequent_ne_nil hs'nodup ha)

theorem eclatLoopNB_eq_fuel (vert : List (Item × TSet)) (mF : ℤ) (total : Nat) :
    ∀ (n : Nat) (stack : List EqClass) (acc : List FreqRec),
      stackMeasure stack < n →
      eclatLoopNB vert mF total stack acc =
        eclatLoopFuel vert mF total n stack acc := by
  intro n
  induction n with
  | zero => intro stack acc h; exact absurd h (by omega)
  | succ n ih =>
    intro stack acc hm
    cases stack with
    | nil =>
      rw [eclatLoopNB]
      rfl
    | cons cls rest =>
      rw [eclatLoopNB]
      cases hpc : processClass vert mF total cls with
      | error e => rw [eclatLoopFuel, hpc]
      | ok pr =>
        rw [eclatLoopFuel, hpc]
        show eclatLoopNB vert mF total (pr.1.reverse ++ rest) (acc ++ pr.2) =
          eclatLoopFuel vert mF total n (pr.1.reverse ++ rest) (acc ++ pr.2)
        have hlt := stackMeasure_step pr.1 rest cls
          (processClass_measure_lt vert mF total cls pr.1 pr.2 hpc)
        exact ih _ _ (by omega)

theorem eclat_none_eq_fuel (db : Obs) (s : ℚ) (n : Nat)
    (h : stackMeasure [seedClass db s] < n) :
    eclat db s none = eclatFuelRun db s n := by
  rw [eclat_none_eq_NB, eclatRunNB, eclatFuelRun]
  exact eclatLoopNB_eq_fuel _ _ _ n _ _ h

/-! ### Concrete fixtures used by the witnesses -/

/-- Two transactions (ids 1 and 2), both containing items 1 and 2. -/
def dbW : Obs := [(1, 1), (1, 2), (2, 1), (2, 2)]

/-- The frequent-itemset table of `dbW` at `min_support = 1/2`. -/
def tableW : List FreqRec := [⟨[1], 2, 1⟩, ⟨[2], 2, 1⟩, ⟨[1, 2], 2, 1⟩]

theorem eclat_dbW_none : eclat dbW (1/2) none = Except.ok tableW := by
  rw [eclat_none_eq_fuel dbW (1/2) 4 (by with_unfolding_all decide)]
  with_unfolding_all rfl

theorem eclat_dbW_one : eclat dbW (1/2) (some 1) =
    Except.ok [⟨[1], 2, 1⟩, ⟨[2], 2, 1⟩] := by
  have h : (1 : ℤ) = ((0 : ℕ) : ℤ) + 1 := by norm_num
  rw [h, eclat_succ_eq_fuel dbW (1/2) 0]
  with_unfolding_all rfl

theorem eclat_dbW_two : eclat dbW (1/2) (some 2) = Except.ok tableW := by
  have h : (2 : ℤ) = ((1 : ℕ) : ℤ) + 1 := by norm_num
  rw [h, eclat_succ_eq_fuel dbW (1/2) 1]
  with_unfolding_all rfl

/-! ### The claims -/

/-- Claim C1: every record in the table returned by `eclat` has frequency
at least `minFreq = ceil(min_support * total_transactions)`, its support
field equals frequency / total distinct transactions, and its support is
at least `min_support`. -/
theorem claim_C1_threshold (db : Obs) (s : ℚ) (cap : Option ℤ)
    (recs : List FreqRec) (r : FreqRec)
    (hs0 : 0 < s) (hs1 : s ≤ 1)
    (hrun : eclat db s cap = Except.ok recs) (hr : r ∈ recs) :
    minFreqOf db s ≤ (r.freq : ℤ) ∧
      r.supp = (r.freq : ℚ) / (totalTransactions db : ℚ) ∧
      s ≤ r.supp := by
  obtain ⟨out, hout, hgood⟩ := eclat_ok db s cap
  rw [hout] at hrun
  cases hrun
  obtain ⟨hne, hitems, hfreq, hmf, hsupp⟩ := hgood r hr
  refine ⟨hmf, hsupp, ?_⟩
  cases hxex : r.itemset with
  | nil => exact absurd hxex hne
  | cons x l =>
    have hx : x ∈ r.itemset := by
      rw [hxex]
      exact List.mem_cons_self x l
    have hN : 0 < totalTransactions db :=
      totalTransactions_pos_of_mem_items (hitems x hx)
    rw [hsupp, le_div_iff₀ (by exact_mod_cast hN)]
    have hceil := hmf
    rw [minFreqOf, Int.ceil_le] at hceil
    exact_mod_cast hceil

theorem claim_C1_threshold_witness :
    minFreqOf dbW (1/2) ≤ ((⟨[1], 2, 1⟩ : FreqRec).freq : ℤ) ∧
      (⟨[1], 2, 1⟩ : FreqRec).supp =
        ((⟨[1], 2, 1⟩ : FreqRec).freq : ℚ) / (totalTransactions dbW : ℚ) ∧
      (1/2 : ℚ) ≤ (⟨[1], 2, 1⟩ : FreqRec).supp :=
  claim_C1_threshold dbW (1/2) none tableW ⟨[1], 2, 1⟩ (by norm_num)
    (by norm_num) eclat_dbW_none (by with_unfolding_all decide)

/-- Claim C2: with an unbounded iteration budget (`max_iter = None`), every
non-empty item set whose true support reaches `min_support` appears exactly
once in the returned table (itemsets compared as sets), and no other item
set appears at all. -/
theorem claim_C2_complete (db : Obs) (s : ℚ) (hs0 : 0 < s) (hs1 : s ≤ 1) :
    ∃ recs, eclat db s none = Except.ok recs ∧
      ∀ S : Finset Item, S.Nonempty →
        recs.countP (recMatch S) = if s ≤ supportOf db S then 1 else 0 :=
  eclat_complete db s hs0

theorem claim_C2_complete_witness :
    (0 : ℚ) < 1/2 ∧ (1/2 : ℚ) ≤ 1 ∧
      (∃ recs, eclat dbW (1/2) none = Except.ok recs ∧
        ∀ S : Finset Item, S.Nonempty →
          recs.countP (recMatch S) =
            if (1/2 : ℚ) ≤ supportOf dbW S then 1 else 0) :=
  ⟨by norm_num, by norm_num,
    claim_C2_complete dbW (1/2) (by norm_num) (by norm_num)⟩

/-- Claim C3: under the precondition that the full itemset and every split
of every input itemset is present in the frequent table (and the itemsets
are duplicate-free), `assoc_rules` returns exactly one rule record per
input itemset and non-empty proper subset taken as antecedent, and each
record's support is the full itemset's table support, its confidence is
frequency(itemset)/frequency(antecedent), and its lift is
confidence/support(consequent). -/
theorem claim_C3_rules (itemsets : List (List Item)) (t : List FreqRec)
    (hnodup : ∀ s' ∈ itemsets, s'.Nodup)
    (hdist : itemsets.Pairwise (fun s1 s2 => s1.toFinset ≠ s2.toFinset))
    (hpresent : ∀ s' ∈ itemsets, ∀ u ∈ s'.sublists, u ≠ [] →
      (lookupFreqRow t u).isSome = true) :
    ∃ rules, assoc_rules itemsets t = Except.ok rules ∧
      rules = (itemsets.flatMap splitsOf).map (expectedRule t) ∧
      (∀ s' ∈ itemsets, ∀ A : Finset Item, A.Nonempty → A ⊂ s'.toFinset →
        rules.countP (fun rr => decide (rr.rule.1.toFinset = A) &&
          decide ((rr.rule.1 ++ rr.rule.2).toFinset = s'.toFinset)) = 1) ∧
      (∀ rr ∈ rules, ∃ s' ∈ itemsets,
        List.Perm (rr.rule.1 ++ rr.rule.2) s' ∧
        rr.support = suppOfRow t s' ∧
        rr.confidence = freqOfRow t s' / freqOfRow t rr.rule.1 ∧
        rr.lift = rr.confidence / suppOfRow t rr.rule.2) := by
  refine ⟨(itemsets.flatMap splitsOf).map (expectedRule t),
    assoc_rules_ok hnodup hpresent, rfl, ?_, ?_⟩
  · intro s' hs' A hA1 hA2
    rw [List.countP_map]
    have hcomp : (itemsets.flatMap splitsOf).countP
        ((fun rr => decide (rr.rule.1.toFinset = A) &&
          decide ((rr.rule.1 ++ rr.rule.2).toFinset = s'.toFinset)) ∘
            expectedRule t) =
        (itemsets.flatMap splitsOf).countP
          (fun ac => decide (ac.1.toFinset = A) &&
            decide ((ac.1 ++ ac.2).toFinset = s'.toFinset)) := by
      refine List.countP_congr ?_
      intro ac _
      exact Iff.rfl
    rw [hcomp]
    exact countP_flatMap_splits itemsets hdist s' hs' rfl (hnodup s' hs')
      hA1 hA2
  · intro rr hrr
    rw [List.mem_map] at hrr
    obtain ⟨ac, hac, rfl⟩ := hrr
    rw [List.mem_flatMap] at hac
    obtain ⟨s', hs', hacs⟩ := hac
    obtain ⟨ha, hc⟩ := splitsOf_rule_shape hacs
    have hperm : List.Perm (ac.1 ++ ac.2) s' := by
      rw [hc]
      exact split_perm (hnodup s' hs') (mem_powersetPy.mp ha).1
    refine ⟨s', hs', hperm, ?_, ?_, rfl⟩
    · show suppOfRow t (ac.1 ++ ac.2) = suppOfRow t s'
      exact suppOfRow_perm t hperm
    · show freqOfRow t (ac.1 ++ ac.2) / freqOfRow t ac.1 =
        freqOfRow t s' / freqOfRow t ac.1
      rw [freqOfRow_perm t hperm]

theorem claim_C3_rules_witness :
    ∃ rules, assoc_rules [[1, 2]] tableW = Except.ok rules ∧
      rules = (([[1, 2]] : List (List Item)).flatMap splitsOf).map
        (expectedRule tableW) ∧
      (∀ s' ∈ ([[1, 2]] : List (List Item)), ∀ A : Finset Item,
        A.Nonempty → A ⊂ s'.toFinset →
        rules.countP (fun rr => decide (rr.rule.1.toFinset = A) &&
          decide ((rr.rule.1 ++ rr.rule.2).toFinset = s'.toFinset)) = 1) ∧
      (∀ rr ∈ rules, ∃ s' ∈ ([[1, 2]] : List (List Item)),
        List.Perm (rr.rule.1 ++ rr.rule.2) s' ∧
        rr.support = suppOfRow tableW s' ∧
        rr.confidence = freqOfRow tableW s' / freqOfRow tableW rr.rule.1 ∧
        rr.lift = rr.confidence / suppOfRow tableW rr.rule.2) :=
  claim_C3_rules [[1, 2]] tableW (by with_unfolding_all decide)
    (by simp) (by with_unfolding_all decide)

/-- Claim C4: if some rule derived from the input itemsets has its full
itemset, antecedent, or consequent absent from the frequent table,
`assoc_rules` fails with an error naming a missing itemset and returns no
partial rule table. -/
theorem claim_C4_missing (itemsets : List (List Item)) (t : List FreqRec)
    (hmiss : ∃ ac ∈ itemsets.flatMap splitsOf,
      ¬((lookupFreqRow t (ac.1 ++ ac.2)).isSome = true ∧
        (lookupFreqRow t ac.1).isSome = true ∧
        (lookupFreqRow t ac.2).isSome = true)) :
    ∃ m, assoc_rules itemsets t = Except.error m ∧
      lookupFreqRow t m = none ∧
      ∃ ac ∈ itemsets.flatMap splitsOf,
        m = ac.1 ++ ac.2 ∨ m = ac.1 ∨ m = ac.2 := by
  rw [assoc_rules]
  exact mkRules_error _ hmiss

theorem claim_C4_missing_witness :
    ∃ m, assoc_rules [[1, 2]] [] = Except.error m ∧
      lookupFreqRow [] m = none ∧
      ∃ ac ∈ ([[1, 2]] : List (List Item)).flatMap splitsOf,
        m = ac.1 ++ ac.2 ∨ m = ac.1 ∨ m = ac.2 :=
  claim_C4_missing [[1, 2]] [] (by with_unfolding_all decide)

/-- Claim C5: in every execution of `eclat` the two itemsets handed to the
common-prefix computation have equal length, so neither of the error
branches of the prefix computation is reachable: `eclat` always returns a
table. -/
theorem claim_C5_no_length_error (db : Obs) (s : ℚ) (cap : Option ℤ) :
    ∃ recs, eclat db s cap = Except.ok recs := by
  obtain ⟨recs, h, -⟩ := eclat_ok db s cap
  exact ⟨recs, h⟩

/-- Claim C6 counterexample: on two transactions both containing items 1
and 2, with `min_support = 1/2`, a budget of `max_iter = 1` performs no pop
at all — the output is exactly the pre-loop singleton records although the
stack is non-empty — while `max_iter = 2` performs the single pop that
emits the pair itemset.  The claim's "`max_iter = n` pops exactly `n`
classes" is therefore false at `n = 1`. -/
theorem claim_C6_counterexample :
    eclat dbW (1/2) (some 1) = Except.ok [⟨[1], 2, 1⟩, ⟨[2], 2, 1⟩] ∧
    eclat dbW (1/2) (some 2) =
      Except.ok [⟨[1], 2, 1⟩, ⟨[2], 2, 1⟩, ⟨[1, 2], 2, 1⟩] :=
  ⟨eclat_dbW_one, eclat_dbW_two⟩

/-- Claim C6 (amended): a positive iteration cap `max_iter = n + 1` permits
exactly `n` pops of the equivalence-class stack (the counter is decremented
before each pop and stops the loop on reaching zero, so the `n + 1` budget
runs the loop at most `n` times), and the returned table is whatever was
accumulated so far, with no error or partial-result flag raised. -/
theorem claim_C6_budget (db : Obs) (s : ℚ) (n : Nat) :
    eclat db s (some ((n : ℤ) + 1)) = eclatFuelRun db s n :=
  eclat_succ_eq_fuel db s n

/-- Claim C7: an absent (`None`) or zero iteration cap makes the search
unbounded: the run coincides with the budget-free loop that terminates only
by the stack emptying, and it returns its complete table (never an
error). -/
theorem claim_C7_unbounded (db : Obs) (s : ℚ) :
    eclat db s none = eclatRunNB db s ∧
    eclat db s (some 0) = eclatRunNB db s ∧
    ∃ recs, eclat db s none = Except.ok recs := by
  refine ⟨eclat_none_eq_NB db s, eclat_zero_eq_NB db s, ?_⟩
  obtain ⟨recs, h, -⟩ := eclat_ok db s none
  exact ⟨recs, h⟩

/-- Claim C8: for any two records of one `eclat` output whose itemsets,
as sets, are in strict inclusion, the smaller itemset's recorded support is
at least the larger one's. -/
theorem claim_C8_monotonicity (db : Obs) (s : ℚ) (cap : Option ℤ)
    (recs : List FreqRec) (r1 r2 : FreqRec)
    (hrun : eclat db s cap = Except.ok recs)
    (h1 : r1 ∈ recs) (h2 : r2 ∈ recs)
    (hsub : r1.itemset.toFinset ⊂ r2.itemset.toFinset) :
    r2.supp ≤ r1.supp := by
  obtain ⟨out, hout, hgood⟩ := eclat_ok db s cap
  rw [hout] at hrun
  cases hrun
  obtain ⟨-, -, hf1, -, hs1⟩ := hgood r1 h1
  obtain ⟨-, -, hf2, -, hs2⟩ := hgood r2 h2
  rw [hs1, hs2, hf1, hf2]
  have hcover : coverSet db r2.itemset ⊆ coverSet db r1.itemset := by
    rw [coverSet_eq_coverSetF, coverSet_eq_coverSetF]
    exact coverSetF_anti hsub.subset
  have hcard : ((coverSet db r2.itemset).card : ℚ) ≤
      ((coverSet db r1.itemset).card : ℚ) := by
    exact_mod_cast Finset.card_le_card hcover
  rcases Nat.eq_zero_or_pos (totalTransactions db) with h0 | hN
  · rw [h0]
    simp
  · have hNq : (0 : ℚ) < (totalTransactions db : ℚ) := by exact_mod_cast hN
    exact (div_le_div_iff_of_pos_right hNq).mpr hcard

theorem claim_C8_monotonicity_witness :
    (⟨[1, 2], 2, 1⟩ : FreqRec).supp ≤ (⟨[1], 2, 1⟩ : FreqRec).supp :=
  claim_C8_monotonicity dbW (1/2) none tableW ⟨[1], 2, 1⟩ ⟨[1, 2], 2, 1⟩
    eclat_dbW_none (by with_unfolding_all decide)
    (by with_unfolding_all decide) (by with_unfolding_all decide)

/-- Claim C9: the frequent-table lookup used by `assoc_rules` matches by
multiset equality, so a stored row whose itemset lists the same items in a
different order is found. -/
theorem claim_C9_multiset_lookup (t : List FreqRec) (target : List Item)
    (r : FreqRec) (hr : r ∈ t) (hperm : List.Perm r.itemset target) :
    ∃ row, lookupFreqRow t target = some row ∧
      List.Perm row.itemset target := by
  have hsome := lookupFreqRow_isSome_of_perm hr hperm
  cases hl : lookupFreqRow t target with
  | none =>
    rw [hl] at hsome
    simp at hsome
  | some row => exact ⟨row, rfl, (lookupFreqRow_some_spec hl).2⟩

theorem claim_C9_multiset_lookup_witness :
    ∃ row, lookupFreqRow [⟨[2, 1], 5, 1⟩] [1, 2] = some row ∧
      List.Perm row.itemset [1, 2] :=
  claim_C9_multiset_lookup [⟨[2, 1], 5, 1⟩] [1, 2] ⟨[2, 1], 5, 1⟩
    (by with_unfolding_all decide) (by with_unfolding_all decide)

/-- Claim C10: when every input itemset has length at most one (including
an empty collection), `assoc_rules` returns an empty rule table and raises
no error, even when those itemsets are absent from the frequent table. -/
theorem claim_C10_short_itemsets (itemsets : List (List Item))
    (t : List FreqRec) (hshort : ∀ s' ∈ itemsets, s'.length ≤ 1) :
    assoc_rules itemsets t = Except.ok [] := by
  rw [assoc_rules]
  have hnil : itemsets.flatMap splitsOf = [] := by
    induction itemsets with
    | nil => rfl
    | cons s0 rest ih =>
      rw [List.flatMap_cons,
        splitsOf_nil_of_short (hshort s0 (List.mem_cons_self s0 rest)),
        List.nil_append]
      exact ih (fun s' hs' => hshort s' (List.mem_cons_of_mem s0 hs'))
  rw [hnil]
  rfl

theorem claim_C10_short_itemsets_witness :
    assoc_rules [[5], []] [] = Except.ok [] :=
  claim_C10_short_itemsets [[5], []] [] (by with_unfolding_all decide)

end EclatAlgo
